import Mathlib

/-!
Verification of the segmented mark-sweep heap manager (ikp-team-16).

The C++ sources are shallowly embedded: segment memory is a total map from
byte offsets to 16-byte block headers, machine integers are `Nat` with an
explicit `% 2^32` (resp. `% 2^64`) wherever the C++ `uint32_t`/pointer
arithmetic can wrap, fallible operations return `Option`/`Except`, and the
stop-the-world sections are modelled as the sequential composition the locks
enforce.  Every definition follows the corresponding function in
`src/` (file and function named in its doc comment).
-/

namespace IKP

/-- Modulus of `uint32_t` arithmetic. -/
def U32 : Nat := 2 ^ 32

/-- Modulus of pointer (`uintptr_t`) arithmetic. -/
def U64 : Nat := 2 ^ 64

/-- Wrapping `uint32_t` subtraction `a - b`. -/
def sub32 (a b : Nat) : Nat := (a + (U32 - b % U32)) % U32

/-- Wrapping `uint32_t` addition. -/
def add32 (a b : Nat) : Nat := (a + b) % U32

/-- `SEGMENT_SIZE` from segment.hpp: 4 MiB. -/
def SEGMENT_SIZE : Nat := 4 * 1024 * 1024

/-- `sizeof(header)`: the header occupies 16 bytes (static_assert in header.hpp). -/
def HEADER_SIZE : Nat := 16

/-- `SMALL_OBJECT_SEGMENTS` from heap.hpp. -/
def SMALL_OBJECT_SEGMENTS : Nat := 4

/-- `MEDIUM_OBJECT_SEGMENTS` from heap.hpp. -/
def MEDIUM_OBJECT_SEGMENTS : Nat := 2

/-- `LARGE_OBJECT_SEGMENTS` from heap.hpp. -/
def LARGE_OBJECT_SEGMENTS : Nat := 2

/-- `TOTAL_SEGMENTS` from heap.hpp. -/
def TOTAL_SEGMENTS : Nat := SMALL_OBJECT_SEGMENTS + MEDIUM_OBJECT_SEGMENTS + LARGE_OBJECT_SEGMENTS

/-- `SMALL_OBJECT_THRESHOLD` from heap-manager.hpp (256 B). -/
def SMALL_OBJECT_THRESHOLD : Nat := 256

/-- `MEDIUM_OBJECT_THRESHOLD` from heap-manager.hpp (2 KiB). -/
def MEDIUM_OBJECT_THRESHOLD : Nat := 2 * 1024

/-- `LARGE_OBJECT_THRESHOLD` from heap-manager.hpp (256 KiB).  It is referenced
only by the workload driver (allocators.cpp); the allocation path never
compares against it. -/
def LARGE_OBJECT_THRESHOLD : Nat := 256 * 1024

/-- `IS_FREE` bit from header.hpp (bit 0 of the flags word). -/
def IS_FREE : Nat := 0x01

/-- `IS_MARKED` bit from header.hpp (bit 1 of the flags word). -/
def IS_MARKED : Nat := 0x02

/-- `struct header` from header.hpp: `next` free-list link (a pointer, modelled
as an optional byte offset within the segment), `size` payload byte count
(`uint32_t`), `flags` word (`uint32_t`, bit 0 = free, bit 1 = marked). -/
structure header where
  next : Option Nat
  size : Nat
  flags : Nat
deriving DecidableEq

instance : Inhabited header := ⟨⟨none, 0, 0⟩⟩

/-- `header::is_free` from header.cpp: `flags & IS_FREE`. -/
def header.is_free (h : header) : Bool := (h.flags &&& IS_FREE) != 0

/-- `header::is_marked` from header.cpp: `flags & IS_MARKED`. -/
def header.is_marked (h : header) : Bool := (h.flags &&& IS_MARKED) != 0

/-- `header::set_free` from header.cpp: `fetch_or(IS_FREE)` respectively
`fetch_and(~IS_FREE)` on the 32-bit flags word (`~0x01 = 0xFFFFFFFE`). -/
def header.set_free (h : header) (free : Bool) : header :=
  { h with flags := if free then h.flags ||| IS_FREE else h.flags &&& 0xFFFFFFFE }

/-- `header::set_marked` from header.cpp: `fetch_or(IS_MARKED)` respectively
`fetch_and(~IS_MARKED)` (`~0x02 = 0xFFFFFFFD`). -/
def header.set_marked (h : header) (marked : Bool) : header :=
  { h with flags := if marked then h.flags ||| IS_MARKED else h.flags &&& 0xFFFFFFFD }

/-- `header::data_ptr` from header.cpp: `reinterpret_cast<void*>(this + 1)`,
i.e. the address 16 bytes past the header, in wrapping pointer arithmetic. -/
def header.data_ptr (a : Nat) : Nat := (a + HEADER_SIZE) % U64

/-- `header::from_data` from header.cpp: `reinterpret_cast<header*>(ptr) - 1`,
i.e. the address 16 bytes before the payload, in wrapping pointer arithmetic. -/
def header.from_data (p : Nat) : Nat := (p + (U64 - HEADER_SIZE)) % U64

/-- A segment's memory, viewed as the block header stored at each byte offset
(the structured reinterpretation the C++ code applies to the raw bytes). -/
abbrev Mem := Nat → header

/-- Store a header at a byte offset of the segment. -/
def Mem.write (m : Mem) (off : Nat) (h : header) : Mem :=
  fun o => if o = off then h else m o

/-- The header placed at offset 0 by `segment::initialize` (segment.cpp):
default-constructed (`next = nullptr`, `flags = 0x01` per header.cpp), then
`size = SEGMENT_SIZE - sizeof(header)`. -/
def initialHeader : header := { next := none, size := SEGMENT_SIZE - HEADER_SIZE, flags := 0x01 }

/-- `segment::initialize` from segment.cpp: plant the initial header at offset
0 of the (otherwise arbitrary) fresh memory. -/
def initSegment (junk : Mem) : Mem := Mem.write junk 0 initialHeader

/-- `struct segment_info` from segment_info.hpp: free-list head pointer and
32-bit free-byte count. -/
structure segment_info where
  free_list_head : Option Nat
  free_bytes : Nat
deriving DecidableEq

/-- The first-fit walk in `heap_manager::allocate_from_segment`
(heap-manager.cpp): follow `next` links from `current`, remembering `prev`,
until a block with `is_free() && size >= bytes` is found.  Fuel bounds the
walk (the C++ loop would diverge on a cyclic list). -/
def findFit (m : Mem) (bytes : Nat) : Nat → Option Nat → Option Nat → Option (Option Nat × Nat)
  | 0, _, _ => none
  | _ + 1, _, none => none
  | fuel + 1, prev, some cur =>
    if (m cur).is_free = true ∧ bytes ≤ (m cur).size then some (prev, cur)
    else findFit m bytes fuel (some cur) (m cur).next

/-- Fuel that dominates every free-list and header-chain walk: a segment holds
fewer than `SEGMENT_SIZE` blocks. -/
def FUEL : Nat := SEGMENT_SIZE

/-- The tail of `heap_manager::allocate_from_segment` (heap-manager.cpp),
after the first-fit walk has yielded `prev`/`current`: split when the
leftover holds a header plus 16 payload bytes, clear the allocated block's
flags, unlink it (patching `prev->next` or the list head), null its `next`,
and debit `free_bytes` (a `uint32_t` subtraction). -/
def afsFinish (m : Mem) (info : segment_info) (bytes : Nat) (prev : Option Nat) (cur : Nat) :
    Mem × segment_info :=
  let remaining := (m cur).size - bytes
  let m1 :=
    if HEADER_SIZE + 16 ≤ remaining then
      let newOff := cur + HEADER_SIZE + bytes
      let mA := Mem.write m newOff
        { m newOff with size := remaining - HEADER_SIZE, next := (m cur).next }
      let mB := Mem.write mA newOff ((mA newOff).set_free true)
      let mC := Mem.write mB newOff ((mB newOff).set_marked false)
      Mem.write mC cur { mC cur with size := bytes, next := some newOff }
    else m
  let m2 := Mem.write m1 cur (((m1 cur).set_free false).set_marked false)
  let m3 :=
    match prev with
    | some p => Mem.write m2 p { m2 p with next := (m2 cur).next }
    | none => m2
  let head' :=
    match prev with
    | some _ => info.free_list_head
    | none => (m2 cur).next
  let m4 := Mem.write m3 cur { m3 cur with next := none }
  (m4, { free_list_head := head',
         free_bytes := sub32 info.free_bytes ((m4 cur).size + HEADER_SIZE) })

/-- `heap_manager::allocate_from_segment` from heap-manager.cpp: bail out on
an absent or empty free list, first-fit walk, then `afsFinish`.  Returns the
allocated block's offset with the updated segment memory and directory
entry. -/
def allocate_from_segment (m : Mem) (info : segment_info) (bytes : Nat) :
    Option (Nat × Mem × segment_info) :=
  match info.free_list_head with
  | none => none
  | some head =>
    match findFit m bytes FUEL none (some head) with
    | none => none
    | some (prev, cur) =>
      let r := afsFinish m info bytes prev cur
      some (cur, r.1, r.2)

/-- `garbage_collector::sweep_segment` from gc.cpp: walk the segment header by
header while `ptr + sizeof(header) <= end`; a marked block loses its mark, an
unmarked one is flagged free; advance by `sizeof(header) + size`. -/
def sweep_segment (m : Mem) : Nat → Nat → Mem
  | 0, _ => m
  | fuel + 1, ptr =>
    if ptr + HEADER_SIZE ≤ SEGMENT_SIZE then
      let m1 :=
        if (m ptr).is_marked = true then Mem.write m ptr ((m ptr).set_marked false)
        else Mem.write m ptr ((m ptr).set_free true)
      sweep_segment m1 fuel (ptr + HEADER_SIZE + (m1 ptr).size)
    else m

/-- The inner merge loop of `heap_manager::coalesce_segment`
(heap-manager.cpp): while the following header fits in the segment and both
the current and the following block are free, absorb the follower
(`size += sizeof(header) + next.size`, a `uint32_t` addition). -/
def coalesceMerge (m : Mem) (cur : Nat) : Nat → Mem
  | 0 => m
  | fuel + 1 =>
    let nextPtr := cur + HEADER_SIZE + (m cur).size
    if nextPtr + HEADER_SIZE ≤ SEGMENT_SIZE then
      if (m cur).is_free = true ∧ (m nextPtr).is_free = true then
        coalesceMerge
          (Mem.write m cur { m cur with size := add32 (m cur).size (HEADER_SIZE + (m nextPtr).size) })
          cur fuel
      else m
    else m

/-- The outer walk of `heap_manager::coalesce_segment` (heap-manager.cpp):
left-to-right over the header chain, stopping at the corruption guard
(`size == 0` or the block overruns the segment); after merging, a free block
is pushed onto the freshly built free list and its bytes are added to the
recomputed count.  Returns the memory, free-list head and free-byte count to
publish. -/
def coalesceLoop (m : Mem) (freeList : Option Nat) (freeBytes : Nat) :
    Nat → Nat → Mem × Option Nat × Nat
  | 0, _ => (m, freeList, freeBytes)
  | fuel + 1, cur =>
    if cur + HEADER_SIZE ≤ SEGMENT_SIZE then
      if (m cur).size = 0 ∨ SEGMENT_SIZE < cur + HEADER_SIZE + (m cur).size then
        (m, freeList, freeBytes)
      else
        let m1 := coalesceMerge m cur FUEL
        if (m1 cur).is_free = true then
          coalesceLoop (Mem.write m1 cur { m1 cur with next := freeList }) (some cur)
            (add32 freeBytes (add32 (m1 cur).size HEADER_SIZE)) fuel
            (cur + HEADER_SIZE + (m1 cur).size)
        else
          coalesceLoop m1 freeList freeBytes fuel (cur + HEADER_SIZE + (m1 cur).size)
    else (m, freeList, freeBytes)

/-- `heap_manager::coalesce_segment` from heap-manager.cpp: rebuild the free
list and free-byte count by the outer walk from offset 0 and publish them in
the segment's directory entry. -/
def coalesce_segment (m : Mem) : Mem × segment_info :=
  let r := coalesceLoop m none 0 FUEL 0
  (r.1, { free_list_head := r.2.1, free_bytes := r.2.2 })

/-! ### Roots and the collector

A heap pointer names a segment and a byte offset within it.  The three root
variants of src/root-set-table hold such pointers; the collector's `visit`
overloads (gc.cpp) mark the header each non-null slot refers to. -/

/-- A `header*` into the heap: segment index and byte offset. -/
abbrev Addr := Nat × Nat

/-- An entry of the thread-local stack (thread-local-stack-entry.hpp):
variable name, scope id, and the `header*` the variable refers to. -/
structure tls_entry where
  variable_name : String
  scope : Nat
  ref_to : Option Addr
deriving DecidableEq

/-- The three root variants of the root-set table (root-set-table):
`thread_local_stack`, `global_root`, `register_root`. -/
inductive root_var where
  | tls (entries : List tls_entry)
  | global (slot : Option Addr)
  | reg (slot : Option Addr)
deriving DecidableEq

/-- The non-null `header*`s a root's `accept(visitor)` hands to the
collector's `visit` overloads (gc.cpp): every non-null `ref_to` of a
thread-local stack, and the slot of a global or register root. -/
def root_var.refs : root_var → List Addr
  | .tls entries => entries.filterMap (fun e => e.ref_to)
  | .global slot => slot.toList
  | .reg slot => slot.toList

/-- The heap (heap.hpp): the memories of the `TOTAL_SEGMENTS` segments, in
directory order (small, then medium, then large). -/
abbrev Heap := List Mem

/-- Mark the header a root refers to: `set_marked(true)` on the header at
the given address (the body of each `garbage_collector::visit`). -/
def heapMark : Heap → Nat → Nat → Heap
  | [], _, _ => []
  | m :: rest, 0, off => Mem.write m off ((m off).set_marked true) :: rest
  | m :: rest, seg + 1, off => m :: heapMark rest seg off

/-- `garbage_collector::mark` from gc.cpp, sequentialized: each root's
`accept` marks every header it refers to (the countdown latch makes the whole
phase complete before sweeping). -/
def gc_mark (h : Heap) (roots : List root_var) : Heap :=
  roots.foldl (fun h r => (root_var.refs r).foldl (fun h a => heapMark h a.1 a.2) h) h

/-- `garbage_collector::sweep` from gc.cpp, sequentialized: sweep every
segment. -/
def gc_sweep (h : Heap) : Heap := h.map (fun m => sweep_segment m FUEL 0)

/-- `garbage_collector::collect` from gc.cpp: mark, then sweep. -/
def gc_collect (h : Heap) (roots : List root_var) : Heap :=
  gc_sweep (gc_mark h roots)

/-! ### The heap manager -/

/-- The heap manager's state (heap-manager.hpp): the segment memories, the
segment directory (`segment_free_memory_table`), the three rotating
"last used segment" cursors, and the root-set table (only the root variants
matter to the claims; keys are irrelevant to collection). -/
structure heap_manager where
  mems : List Mem
  infos : List segment_info
  last_small : Nat
  last_medium : Nat
  last_large : Nat
  roots : List root_var

/-- A fresh `heap_manager` (constructor in heap-manager.cpp): every segment
initialized, directory entry `i` pointing at segment `i`'s initial header
with `free_bytes = SEGMENT_SIZE - 16`, cursors defaulted to the last segment
of each class. -/
def heap_manager.mk0 (junk : Mem) : heap_manager :=
  { mems := List.replicate TOTAL_SEGMENTS (initSegment junk)
    infos := List.replicate TOTAL_SEGMENTS ⟨some 0, SEGMENT_SIZE - HEADER_SIZE⟩
    last_small := SMALL_OBJECT_SEGMENTS - 1
    last_medium := SMALL_OBJECT_SEGMENTS + MEDIUM_OBJECT_SEGMENTS - 1
    last_large := SMALL_OBJECT_SEGMENTS + MEDIUM_OBJECT_SEGMENTS + LARGE_OBJECT_SEGMENTS - 1
    roots := [] }

/-- The scan loop of `heap_manager::find_suitable_segment` (heap-manager.cpp),
sequentialized: in rotation order within the class range, skip entries whose
`free_bytes < bytes + sizeof(header)`; the try-lock always succeeds with no
contending thread, so the first surviving candidate is returned (and the
deferred fallback is never consulted: it is only returned when every try-lock
fails). -/
def findIter (infos : List segment_info) (bytes start_idx segment_count start_offset : Nat) :
    Nat → Nat → Option Nat
  | 0, _ => none
  | remaining + 1, offset =>
    let idx := start_idx + (start_offset + offset + 1) % segment_count
    match infos.get? idx with
    | none => findIter infos bytes start_idx segment_count start_offset remaining (offset + 1)
    | some si =>
      if si.free_bytes < bytes + HEADER_SIZE then
        findIter infos bytes start_idx segment_count start_offset remaining (offset + 1)
      else some idx

/-- `heap_manager::find_suitable_segment` from heap-manager.cpp: pick the
class range from the rounded size, start one past the class cursor (guarding
a cursor outside the range), scan, and update the cursor on success.
Returns the found index together with the updated manager. -/
def heap_manager.find_suitable_segment (hm : heap_manager) (bytes : Nat) :
    Option Nat × heap_manager :=
  let ranges :=
    if bytes ≤ SMALL_OBJECT_THRESHOLD then
      (0, SMALL_OBJECT_SEGMENTS, hm.last_small)
    else if bytes ≤ MEDIUM_OBJECT_THRESHOLD then
      (SMALL_OBJECT_SEGMENTS, SMALL_OBJECT_SEGMENTS + MEDIUM_OBJECT_SEGMENTS, hm.last_medium)
    else
      (SMALL_OBJECT_SEGMENTS + MEDIUM_OBJECT_SEGMENTS,
       SMALL_OBJECT_SEGMENTS + MEDIUM_OBJECT_SEGMENTS + LARGE_OBJECT_SEGMENTS, hm.last_large)
  let start_idx := ranges.1
  let end_idx := ranges.2.1
  let last_used := ranges.2.2
  let segment_count := end_idx - start_idx
  let start_offset := if start_idx ≤ last_used ∧ last_used < end_idx then last_used - start_idx else 0
  match findIter hm.infos bytes start_idx segment_count start_offset segment_count 0 with
  | none => (none, hm)
  | some idx =>
    if bytes ≤ SMALL_OBJECT_THRESHOLD then (some idx, { hm with last_small := idx })
    else if bytes ≤ MEDIUM_OBJECT_THRESHOLD then (some idx, { hm with last_medium := idx })
    else (some idx, { hm with last_large := idx })

/-- Run `allocate_from_segment` on segment `idx` of the manager, writing the
updated memory and directory entry back. -/
def heap_manager.alloc_at (hm : heap_manager) (idx bytes : Nat) :
    Option (Addr × heap_manager) :=
  match hm.mems.get? idx, hm.infos.get? idx with
  | some m, some info =>
    match allocate_from_segment m info bytes with
    | none => none
    | some (ptr, m', info') =>
      some ((idx, ptr), { hm with mems := hm.mems.set idx m', infos := hm.infos.set idx info' })
  | _, _ => none

/-- `heap_manager::collect_garbage` from heap-manager.cpp: under every lock
(stop-the-world), run the collector's mark and sweep, then coalesce every
segment, publishing each segment's rebuilt free list and free-byte count. -/
def heap_manager.collect_garbage (hm : heap_manager) : heap_manager :=
  let swept := gc_collect hm.mems hm.roots
  let co := swept.map coalesce_segment
  { hm with mems := co.map Prod.fst, infos := co.map Prod.snd }

/-- The fast-path loop of `heap_manager::allocate` (heap-manager.cpp):
`FAST_ATTEMPTS` rounds of `find_suitable_segment` followed by
`allocate_from_segment` on the found segment. -/
def heap_manager.fastPath (hm : heap_manager) (bytes : Nat) :
    Nat → Option Addr × heap_manager
  | 0 => (none, hm)
  | attempts + 1 =>
    match hm.find_suitable_segment bytes with
    | (some idx, hm1) =>
      match hm1.alloc_at idx bytes with
      | some (a, hm2) => (some a, hm2)
      | none => hm1.fastPath bytes attempts
    | (none, hm1) => hm1.fastPath bytes attempts

/-- `FAST_ATTEMPTS` from `heap_manager::allocate`. -/
def FAST_ATTEMPTS : Nat := 3

/-- `heap_manager::allocate` from heap-manager.cpp: reject 0, round the
request up to a multiple of 16 in `uint32_t` arithmetic
(`bytes = (bytes + 15) & ~15`), run the fast path, then — sequentializing the
single-flight protocol, in which the caller either wins the flag and collects
or waits for the winner's collection to finish — one collection followed by
one final `find_suitable_segment` + `allocate_from_segment` attempt. -/
def heap_manager.allocate (hm : heap_manager) (bytes : Nat) :
    Option Addr × heap_manager :=
  if bytes = 0 then (none, hm)
  else
    let bytes := ((bytes + 15) % U32) &&& 0xFFFFFFF0
    match hm.fastPath bytes FAST_ATTEMPTS with
    | (some a, hm1) => (some a, hm1)
    | (none, hm1) =>
      let hm2 := hm1.collect_garbage
      match hm2.find_suitable_segment bytes with
      | (some idx, hm3) =>
        match hm3.alloc_at idx bytes with
        | some (a, hm4) => (some a, hm4)
        | none => (none, hm3)
      | (none, hm3) => (none, hm3)

/-! ### The thread-local stack root variant

`thread_local_stack` (src/root-set-table/thread-local-stack.cpp) keeps a
scope counter, an `indexed_stack` of entries (bottom to top) and a
`hash_map<string, size_t>` from variable name to stack index.  The hash map
is embedded as an association list (its operations below mirror
hash-map.hpp's contains/insert/erase/lookup semantics). -/

/-- `hash_map::contains`. -/
def hm_contains (l : List (String × Nat)) (k : String) : Bool :=
  l.any (fun e => e.1 == k)

/-- `hash_map::operator[]` / lookup. -/
def hm_find (l : List (String × Nat)) (k : String) : Option Nat :=
  (l.find? (fun e => e.1 == k)).map (fun e => e.2)

/-- `hash_map::insert`: update in place if the key exists, else append. -/
def hm_insert (l : List (String × Nat)) (k : String) (v : Nat) : List (String × Nat) :=
  if hm_contains l k then l.map (fun e => if e.1 == k then (k, v) else e)
  else l ++ [(k, v)]

/-- `hash_map::erase`: drop the key's entry. -/
def hm_erase (l : List (String × Nat)) (k : String) : List (String × Nat) :=
  l.filter (fun e => !(e.1 == k))

/-- The error conditions `thread_local_stack` raises (`std::invalid_argument`
in the source; the spec's taxonomy names them `AlreadyDefined`/`NotFound`). -/
inductive tls_error where
  | AlreadyDefined
  | NotFound
deriving DecidableEq

/-- `class thread_local_stack` (thread-local-stack.hpp): scope counter,
entry stack (bottom to top) and name-to-index map. -/
structure thread_local_stack where
  scope : Nat
  thread_stack : List tls_entry
  var_to_idx : List (String × Nat)
deriving DecidableEq

/-- The freshly constructed `thread_local_stack`: `scope = 1`, both
containers empty. -/
def thread_local_stack.mk0 : thread_local_stack := ⟨1, [], []⟩

/-- `thread_local_stack::init` from thread-local-stack.cpp: fail if the name
exists, else record `name ↦ get_size()` and push `{ref_to, scope, name}`. -/
def thread_local_stack.init (s : thread_local_stack) (variable_name : String)
    (heap_ptr : Option Addr) : Except tls_error thread_local_stack :=
  if hm_contains s.var_to_idx variable_name then .error .AlreadyDefined
  else .ok { s with
    var_to_idx := hm_insert s.var_to_idx variable_name s.thread_stack.length
    thread_stack := s.thread_stack ++
      [{ variable_name := variable_name, scope := s.scope, ref_to := heap_ptr }] }

/-- Write entry `idx` of the stack (`thread_stack[idx].ref_to = r`). -/
def writeRef : List tls_entry → Nat → Option Addr → List tls_entry
  | [], _, _ => []
  | e :: rest, 0, r => { e with ref_to := r } :: rest
  | e :: rest, idx + 1, r => e :: writeRef rest idx r

/-- `thread_local_stack::reassign_ref` from thread-local-stack.cpp: fail if
the name is absent, else redirect the entry's `ref_to`. -/
def thread_local_stack.reassign_ref (s : thread_local_stack) (variable_name : String)
    (new_ref_to : Option Addr) : Except tls_error thread_local_stack :=
  match hm_find s.var_to_idx variable_name with
  | none => .error .NotFound
  | some idx => .ok { s with thread_stack := writeRef s.thread_stack idx new_ref_to }

/-- `thread_local_stack::remove_ref` from thread-local-stack.cpp: fail if the
name is absent, else null the entry's `ref_to` (the entry itself stays). -/
def thread_local_stack.remove_ref (s : thread_local_stack) (variable_name : String) :
    Except tls_error thread_local_stack :=
  match hm_find s.var_to_idx variable_name with
  | none => .error .NotFound
  | some idx => .ok { s with thread_stack := writeRef s.thread_stack idx none }

/-- `thread_local_stack::push_scope`: `++scope`. -/
def thread_local_stack.push_scope (s : thread_local_stack) : thread_local_stack :=
  { s with scope := s.scope + 1 }

/-- The retire loop of `pop_scope`: `while(!empty && peek().scope == scope)`
erase the top entry's name and pop it.  Operates on the reversed stack
(top first), mirroring peek/pop on the stack's end. -/
def popLoop (scope : Nat) : List tls_entry → List (String × Nat) →
    List tls_entry × List (String × Nat)
  | [], vmap => ([], vmap)
  | e :: rest, vmap =>
    if e.scope = scope then popLoop scope rest (hm_erase vmap e.variable_name)
    else (e :: rest, vmap)

/-- `thread_local_stack::pop_scope` from thread-local-stack.cpp: a no-op when
`(scope ≤ 1 && !destr) || scope == 0`; otherwise retire every top entry of
the current scope and decrement the counter. -/
def thread_local_stack.pop_scope (s : thread_local_stack) (destr : Bool) : thread_local_stack :=
  if (s.scope ≤ 1 ∧ destr = false) ∨ s.scope = 0 then s
  else
    let r := popLoop s.scope s.thread_stack.reverse s.var_to_idx
    { scope := s.scope - 1, thread_stack := r.1.reverse, var_to_idx := r.2 }

/-- The states a `thread_local_stack` can reach from construction through its
public interface (successful or failed operations; a failed `init`,
`reassign_ref` or `remove_ref` throws before mutating, leaving the state
unchanged). -/
inductive tlsReach : thread_local_stack → Prop where
  | ctor : tlsReach thread_local_stack.mk0
  | initVar {s n p s2} : tlsReach s → s.init n p = .ok s2 → tlsReach s2
  | reassign {s n p s2} : tlsReach s → s.reassign_ref n p = .ok s2 → tlsReach s2
  | removeR {s n s2} : tlsReach s → s.remove_ref n = .ok s2 → tlsReach s2
  | push {s} : tlsReach s → tlsReach s.push_scope
  | pop {s d} : tlsReach s → tlsReach (s.pop_scope d)

/-! ### Header chains, free lists, and the segment invariant -/

/-- `ChainTo m a b L`: walking block headers from offset `a` — stepping by
`sizeof(header) + size` as the sweep and coalesce walks do — visits exactly
the offsets in `L` and lands exactly on `b`.  `ChainTo m 0 SEGMENT_SIZE L`
says the chain `L` tiles the segment. -/
inductive ChainTo (m : Mem) : Nat → Nat → List Nat → Prop where
  | nil (b : Nat) : ChainTo m b b []
  | cons {a b : Nat} {L : List Nat} :
      ChainTo m (a + HEADER_SIZE + (m a).size) b L → ChainTo m a b (a :: L)

/-- `FollowTo m p q L`: chasing `next` links from the pointer `p` passes
exactly through the offsets in `L` and arrives at the pointer `q`. -/
inductive FollowTo (m : Mem) : Option Nat → Option Nat → List Nat → Prop where
  | nil (p : Option Nat) : FollowTo m p p []
  | cons {o : Nat} {q : Option Nat} {L : List Nat} :
      FollowTo m (m o).next q L → FollowTo m (some o) q (o :: L)

/-- `FreeListRep m head L`: following `next` links from `head` traverses
exactly the offsets in `L` and ends at null. -/
def FreeListRep (m : Mem) (head : Option Nat) (L : List Nat) : Prop :=
  FollowTo m head none L

/-- Total bytes of the blocks at the given offsets, headers included:
`Σ (size + sizeof(header))`. -/
def sumBytes (m : Mem) (L : List Nat) : Nat :=
  (L.map (fun o => (m o).size + HEADER_SIZE)).sum

/-- The segment directory invariant: the header chain from offset 0 tiles the
segment, the free list is a null-terminated acyclic chain of free blocks of
that chain, and `free_bytes` is the sum of `size + 16` over it. -/
def SegWF (m : Mem) (info : segment_info) : Prop :=
  ∃ blocks flist,
    ChainTo m 0 SEGMENT_SIZE blocks ∧
    FreeListRep m info.free_list_head flist ∧
    flist.Nodup ∧
    (∀ o ∈ flist, o ∈ blocks ∧ (m o).is_free = true) ∧
    info.free_bytes = sumBytes m flist

/-- Mark phase restricted to one segment: the collector's visits set the
marked bit on each root-referenced header of this segment, in order. -/
def markSeg (m : Mem) (roots : List Nat) : Mem :=
  roots.foldl (fun m a => Mem.write m a ((m a).set_marked true)) m

/-- One segment's share of `heap_manager::collect_garbage`: the roots
referring into this segment are marked, the segment is swept, then coalesced
and its directory entry republished. -/
def collectSeg (m : Mem) (roots : List Nat) : Mem × segment_info :=
  coalesce_segment (sweep_segment (markSeg m roots) FUEL 0)

/-- The quiescent states a segment and its directory entry reach: freshly
constructed, after a successful `allocate_from_segment`, or after a
collection (with any root set). -/
inductive segReach : Mem → segment_info → Prop where
  | ctor (junk : Mem) : segReach (initSegment junk) ⟨some 0, SEGMENT_SIZE - HEADER_SIZE⟩
  | alloc {m info bytes ptr m2 info2} : segReach m info →
      allocate_from_segment m info bytes = some (ptr, m2, info2) → segReach m2 info2
  | gcStep {m info} (roots : List Nat) : segReach m info →
      segReach (collectSeg m roots).1 (collectSeg m roots).2

/-- Like `segReach`, but every allocation request is nonzero (as is every
rounded request `(n + 15) & ~15` with `0 < n < 2^32 - 15`): no zero-size
block ever arises. -/
inductive segReachPos : Mem → segment_info → Prop where
  | ctor (junk : Mem) : segReachPos (initSegment junk) ⟨some 0, SEGMENT_SIZE - HEADER_SIZE⟩
  | alloc {m info bytes ptr m2 info2} : segReachPos m info → 1 ≤ bytes →
      allocate_from_segment m info bytes = some (ptr, m2, info2) → segReachPos m2 info2
  | gcStep {m info} (roots : List Nat) : segReachPos m info →
      segReachPos (collectSeg m roots).1 (collectSeg m roots).2

/-! ### Basic lemmas: memory writes and header flags -/

theorem Mem.write_at (m : Mem) (off : Nat) (h : header) : Mem.write m off h off = h := by
  simp [Mem.write]

theorem Mem.write_ne (m : Mem) {off o : Nat} (h : header) (hne : o ≠ off) :
    Mem.write m off h o = m o := by
  simp [Mem.write, hne]

@[simp] theorem header.is_free_of_flags (x : Option Nat) (s : Nat) (h : header) :
    (header.mk x s h.flags).is_free = h.is_free := rfl

@[simp] theorem header.is_marked_of_flags (x : Option Nat) (s : Nat) (h : header) :
    (header.mk x s h.flags).is_marked = h.is_marked := rfl

@[simp] theorem header.set_free_size (h : header) (b : Bool) : (h.set_free b).size = h.size := by
  cases b <;> rfl

@[simp] theorem header.set_free_next (h : header) (b : Bool) : (h.set_free b).next = h.next := by
  cases b <;> rfl

@[simp] theorem header.set_marked_size (h : header) (b : Bool) : (h.set_marked b).size = h.size := by
  cases b <;> rfl

@[simp] theorem header.set_marked_next (h : header) (b : Bool) : (h.set_marked b).next = h.next := by
  cases b <;> rfl

theorem header.is_free_testBit (h : header) : h.is_free = h.flags.testBit 0 := by
  have h1 : h.flags &&& 1 = (h.flags.testBit 0).toNat * 1 := by
    simpa using Nat.and_two_pow h.flags 0
  cases hb : h.flags.testBit 0 <;> simp [header.is_free, IS_FREE, h1, hb]

theorem header.is_marked_testBit (h : header) : h.is_marked = h.flags.testBit 1 := by
  have h1 : h.flags &&& 2 = (h.flags.testBit 1).toNat * 2 := by
    simpa using Nat.and_two_pow h.flags 1
  cases hb : h.flags.testBit 1 <;> simp [header.is_marked, IS_MARKED, h1, hb]

@[simp] theorem header.is_free_set_free (h : header) (b : Bool) : (h.set_free b).is_free = b := by
  have h1 : Nat.testBit 1 0 = true := by decide
  have h2 : Nat.testBit 4294967294 0 = false := by decide
  cases b <;>
    simp [header.set_free, header.is_free_testBit, Nat.testBit_lor, Nat.testBit_land, IS_FREE,
      h1, h2]

@[simp] theorem header.is_free_set_marked (h : header) (b : Bool) :
    (h.set_marked b).is_free = h.is_free := by
  have h1 : Nat.testBit 2 0 = false := by decide
  have h2 : Nat.testBit 4294967293 0 = true := by decide
  cases b <;>
    simp [header.set_marked, header.is_free_testBit, Nat.testBit_lor, Nat.testBit_land, IS_MARKED,
      h1, h2]

@[simp] theorem header.is_marked_set_marked (h : header) (b : Bool) :
    (h.set_marked b).is_marked = b := by
  have h1 : Nat.testBit 2 1 = true := by decide
  have h2 : Nat.testBit 4294967293 1 = false := by decide
  cases b <;>
    simp [header.set_marked, header.is_marked_testBit, Nat.testBit_lor, Nat.testBit_land,
      IS_MARKED, h1, h2]

@[simp] theorem header.is_marked_set_free (h : header) (b : Bool) :
    (h.set_free b).is_marked = h.is_marked := by
  have h1 : Nat.testBit 1 1 = false := by decide
  have h2 : Nat.testBit 4294967294 1 = true := by decide
  cases b <;>
    simp [header.set_free, header.is_marked_testBit, Nat.testBit_lor, Nat.testBit_land, IS_FREE,
      h1, h2]

theorem HEADER_SIZE_pos : 0 < HEADER_SIZE := by norm_num [HEADER_SIZE]

theorem SEGMENT_SIZE_lt_U32 : SEGMENT_SIZE < U32 := by norm_num [SEGMENT_SIZE, U32]

theorem sub32_eq {a b : Nat} (hb : b ≤ a) (ha : a < U32) : sub32 a b = a - b := by
  have hU : 0 < U32 := by norm_num [U32]
  have hbU : b % U32 = b := Nat.mod_eq_of_lt (lt_of_le_of_lt hb ha)
  have hU32 : U32 = 4294967296 := by norm_num [U32]
  rw [sub32, hbU, hU32]
  rw [hU32] at ha
  omega

theorem add32_eq {a b : Nat} (h : a + b < U32) : add32 a b = a + b := by
  rw [add32]
  exact Nat.mod_eq_of_lt h

/-! ### Chain lemmas -/

theorem ChainTo.le {m : Mem} {a b : Nat} {L : List Nat} (h : ChainTo m a b L) : a ≤ b := by
  induction h with
  | nil => exact le_refl _
  | cons _ ih => omega

theorem ChainTo.head_eq {m : Mem} {a b x : Nat} {L : List Nat}
    (h : ChainTo m a b (x :: L)) : x = a := by
  cases h; rfl

theorem ChainTo.mem_bounds {m : Mem} {a b : Nat} {L : List Nat} (h : ChainTo m a b L) :
    ∀ x ∈ L, a ≤ x ∧ x + HEADER_SIZE + (m x).size ≤ b := by
  induction h with
  | nil => simp
  | cons h ih =>
    intro x hx
    rcases List.mem_cons.mp hx with rfl | hx
    · exact ⟨le_refl _, h.le⟩
    · have := ih x hx
      omega

theorem ChainTo.append {m : Mem} {a b c : Nat} {L1 L2 : List Nat}
    (h1 : ChainTo m a b L1) (h2 : ChainTo m b c L2) : ChainTo m a c (L1 ++ L2) := by
  induction h1 with
  | nil => simpa using h2
  | cons _ ih => exact ChainTo.cons (ih h2)

theorem ChainTo.mem_split {m : Mem} {a b x : Nat} {L : List Nat}
    (h : ChainTo m a b L) (hx : x ∈ L) :
    ∃ L1 L2, L = L1 ++ x :: L2 ∧ ChainTo m a x L1 ∧ ChainTo m x b (x :: L2) := by
  induction h with
  | nil => simp at hx
  | cons h ih =>
    rcases List.mem_cons.mp hx with rfl | hx
    · exact ⟨[], _, rfl, ChainTo.nil _, ChainTo.cons h⟩
    · obtain ⟨L1, L2, hL, hc1, hc2⟩ := ih hx
      exact ⟨_ :: L1, L2, by simp [hL], ChainTo.cons hc1, hc2⟩

theorem ChainTo.frame {m m2 : Mem} {a b : Nat} {L : List Nat} (h : ChainTo m a b L)
    (hs : ∀ x ∈ L, (m2 x).size = (m x).size) : ChainTo m2 a b L := by
  induction h with
  | nil => exact ChainTo.nil _
  | @cons a' b' L' h ih =>
    refine ChainTo.cons ?_
    rw [hs a' (List.mem_cons_self _ _)]
    exact ih (fun x hx => hs x (List.mem_cons_of_mem _ hx))

theorem sumBytes_nil (m : Mem) : sumBytes m [] = 0 := rfl

theorem sumBytes_cons (m : Mem) (o : Nat) (L : List Nat) :
    sumBytes m (o :: L) = ((m o).size + HEADER_SIZE) + sumBytes m L := by
  simp [sumBytes]

theorem sumBytes_append (m : Mem) (L1 L2 : List Nat) :
    sumBytes m (L1 ++ L2) = sumBytes m L1 + sumBytes m L2 := by
  simp [sumBytes]

theorem sumBytes_congr {m m2 : Mem} {L : List Nat}
    (hs : ∀ o ∈ L, (m2 o).size = (m o).size) : sumBytes m2 L = sumBytes m L := by
  induction L with
  | nil => rfl
  | cons o L ih =>
    rw [sumBytes_cons, sumBytes_cons, hs o (List.mem_cons_self _ _),
      ih (fun x hx => hs x (List.mem_cons_of_mem _ hx))]

theorem ChainTo.sum {m : Mem} {a b : Nat} {L : List Nat} (h : ChainTo m a b L) :
    a + sumBytes m L = b := by
  induction h with
  | nil => simp [sumBytes_nil]
  | cons _ ih => rw [sumBytes_cons]; omega

theorem ChainTo.pairwise_lt {m : Mem} {a b : Nat} {L : List Nat} (h : ChainTo m a b L) :
    L.Pairwise (· < ·) := by
  induction h with
  | nil => exact List.Pairwise.nil
  | @cons a' b' L' h ih =>
    refine List.Pairwise.cons (fun x hx => ?_) ih
    have := h.mem_bounds x hx
    have := HEADER_SIZE_pos
    omega

theorem ChainTo.nodup {m : Mem} {a b : Nat} {L : List Nat} (h : ChainTo m a b L) : L.Nodup :=
  h.pairwise_lt.imp Nat.ne_of_lt

theorem ChainTo.length_le {m : Mem} {a b : Nat} {L : List Nat} (h : ChainTo m a b L) :
    a + HEADER_SIZE * L.length ≤ b := by
  induction h with
  | nil => simp
  | cons _ ih => simp only [List.length_cons, Nat.mul_add, Nat.mul_one]; omega

/-! ### Free-list lemmas -/

theorem FollowTo.functional {m : Mem} {p q : Option Nat} {L1 : List Nat} (h1 : FollowTo m p q L1) :
    ∀ {L2 : List Nat}, FollowTo m p q L2 → q = none → L1 = L2 := by
  induction h1 with
  | nil p =>
    intro L2 h2 hq
    cases h2 with
    | nil => rfl
    | cons h2 => cases hq
  | @cons o q' L' h ih =>
    intro L2 h2 hq
    cases h2 with
    | nil => cases hq
    | cons h2 => rw [ih h2 hq]

theorem FollowTo.append_runs {m : Mem} {p q r : Option Nat} {L1 L2 : List Nat}
    (h1 : FollowTo m p q L1) (h2 : FollowTo m q r L2) : FollowTo m p r (L1 ++ L2) := by
  induction h1 with
  | nil => simpa using h2
  | cons _ ih => exact FollowTo.cons (ih h2)

theorem FollowTo.mem_split_run {m : Mem} {p q : Option Nat} {x : Nat} {L : List Nat}
    (h : FollowTo m p q L) (hx : x ∈ L) :
    ∃ L1 L2, L = L1 ++ x :: L2 ∧ FollowTo m p (some x) L1 ∧ FollowTo m (m x).next q L2 := by
  induction h with
  | nil => simp at hx
  | @cons o q' L' h ih =>
    rcases List.mem_cons.mp hx with rfl | hx
    · exact ⟨[], L', rfl, FollowTo.nil _, h⟩
    · obtain ⟨L1, L2, hL, hc1, hc2⟩ := ih hx
      exact ⟨o :: L1, L2, by simp [hL], FollowTo.cons hc1, hc2⟩

theorem FollowTo.frame_next {m m2 : Mem} {p q : Option Nat} {L : List Nat} (h : FollowTo m p q L)
    (hs : ∀ x ∈ L, (m2 x).next = (m x).next) : FollowTo m2 p q L := by
  induction h with
  | nil => exact FollowTo.nil _
  | @cons o q' L' h ih =>
    refine FollowTo.cons ?_
    rw [hs o (List.mem_cons_self _ _)]
    exact ih (fun x hx => hs x (List.mem_cons_of_mem _ hx))

/-- Retarget the last link of a non-empty pointer run: if in `m2` the last
element's `next` has become `q2` and no other element's `next` changed, the
run now arrives at `q2`. -/
theorem FollowTo.retarget {m m2 : Mem} {p q q2 : Option Nat} {L : List Nat}
    (h : FollowTo m p q L) (hne : L ≠ []) (hnd : L.Nodup)
    (hlast : ∀ hne2 : L ≠ [], (m2 (L.getLast hne2)).next = q2)
    (hother : ∀ x ∈ L.dropLast, (m2 x).next = (m x).next) :
    FollowTo m2 p q2 L := by
  induction h with
  | nil => exact absurd rfl hne
  | @cons o q' L' h ih =>
    cases L' with
    | nil =>
      have := hlast (by simp)
      simp at this
      exact FollowTo.cons (this ▸ FollowTo.nil _)
    | cons o2 L2 =>
      have hnext : (m2 o).next = (m o).next := by
        apply hother
        have : o ∈ (o :: o2 :: L2).dropLast := by
          rw [List.dropLast_cons₂]
          exact List.mem_cons_self _ _
        exact this
      refine FollowTo.cons ?_
      rw [hnext]
      refine ih (by simp) (hnd.sublist (List.sublist_cons_self _ _)) ?_ ?_
      · intro hne2
        have := hlast (by simp)
        rwa [List.getLast_cons (by simp)] at this
      · intro x hx
        apply hother
        rw [List.dropLast_cons₂]
        exact List.mem_cons_of_mem _ hx

theorem sumBytes_le_of_subset {m : Mem} {l1 l2 : List Nat} (h1 : l1.Nodup) (h2 : l2.Nodup)
    (hs : ∀ x ∈ l1, x ∈ l2) : sumBytes m l1 ≤ sumBytes m l2 := by
  induction l1 generalizing l2 with
  | nil => exact Nat.zero_le _
  | cons o rest ih =>
    obtain ⟨s, t, rfl⟩ := List.append_of_mem (hs o (List.mem_cons_self _ _))
    have hosub : rest ⊆ s ++ t := by
      intro x hx
      have hxo : x ≠ o := fun hxo => (List.nodup_cons.mp h1).1 (hxo ▸ hx)
      have := hs x (List.mem_cons_of_mem _ hx)
      rcases List.mem_append.mp this with h | h
      · exact List.mem_append.mpr (Or.inl h)
      · rcases List.mem_cons.mp h with h | h
        · exact absurd h hxo
        · exact List.mem_append.mpr (Or.inr h)
    have hndst : (s ++ t).Nodup :=
      h2.sublist (List.Sublist.append_left (List.sublist_cons_self _ _) s)
    have := ih (List.nodup_cons.mp h1).2 hndst hosub
    rw [sumBytes_cons, sumBytes_append, sumBytes_cons]
    rw [sumBytes_append] at this
    omega

theorem nodup_length_le_of_subset {l1 l2 : List Nat} (h1 : l1.Nodup) (hs : ∀ x ∈ l1, x ∈ l2) :
    l1.length ≤ l2.length := by
  have hcard : l1.toFinset.card = l1.length := List.toFinset_card_of_nodup h1
  have hsub : l1.toFinset ⊆ l2.toFinset := by
    intro x hx
    exact List.mem_toFinset.mpr (hs x (List.mem_toFinset.mp hx))
  calc l1.length = l1.toFinset.card := hcard.symm
    _ ≤ l2.toFinset.card := Finset.card_le_card hsub
    _ ≤ l2.length := l2.toFinset_card_le

/-! ### First-fit walk characterization -/

/-- The first-fit condition of `allocate_from_segment`:
`is_free() && size >= bytes`. -/
def fitPred (m : Mem) (bytes o : Nat) : Prop := (m o).is_free = true ∧ bytes ≤ (m o).size

instance (m : Mem) (bytes o : Nat) : Decidable (fitPred m bytes o) := by
  unfold fitPred; infer_instance

/-- The `prev` pointer the walk reports when the nodes in `pre` were passed
over starting from `prev`. -/
def lastPrev (pre : List Nat) (prev : Option Nat) : Option Nat :=
  match pre.getLast? with
  | some x => some x
  | none => prev

theorem lastPrev_nil (prev : Option Nat) : lastPrev [] prev = prev := rfl

theorem lastPrev_cons (o : Nat) (pre : List Nat) (prev : Option Nat) :
    lastPrev (o :: pre) prev = lastPrev pre (some o) := by
  cases pre with
  | nil => rfl
  | cons x xs =>
    cases hgl : (x :: xs).getLast? with
    | none => exact absurd (List.getLast?_eq_none_iff.mp hgl) (by simp)
    | some y => simp [lastPrev, List.getLast?_cons_cons, hgl]

theorem findFit_none_ptr (m : Mem) (bytes fuel : Nat) (prev : Option Nat) :
    findFit m bytes fuel prev none = none := by
  cases fuel <;> rfl

theorem findFit_succ_some (m : Mem) (bytes fuel : Nat) (prev : Option Nat) (cur : Nat) :
    findFit m bytes (fuel + 1) prev (some cur) =
      if fitPred m bytes cur then some (prev, cur)
      else findFit m bytes fuel (some cur) (m cur).next := rfl

theorem findFit_cases {m : Mem} {bytes : Nat} :
    ∀ {fl : List Nat} {fuel : Nat} {prev h : Option Nat}, FollowTo m h none fl →
    fl.length ≤ fuel →
    (findFit m bytes fuel prev h = none ∧ ∀ o ∈ fl, ¬ fitPred m bytes o) ∨
    (∃ pre cur post, fl = pre ++ cur :: post ∧ (∀ o ∈ pre, ¬ fitPred m bytes o) ∧
      fitPred m bytes cur ∧ findFit m bytes fuel prev h = some (lastPrev pre prev, cur)) := by
  intro fl
  induction fl with
  | nil =>
    intro fuel prev h hF _
    cases hF
    exact Or.inl ⟨findFit_none_ptr _ _ _ _, by simp⟩
  | cons o rest ih =>
    intro fuel prev h hF hlen
    cases hF with
    | cons hF2 =>
      match fuel, hlen with
      | f + 1, hlen =>
        by_cases hfit : fitPred m bytes o
        · exact Or.inr ⟨[], o, rest, rfl, by simp, hfit, by
            rw [findFit_succ_some, if_pos hfit, lastPrev_nil]⟩
        · have hlen2 : rest.length ≤ f := by simpa using hlen
          rcases @ih f (some o) _ hF2 hlen2 with ⟨hnone, hall⟩ | ⟨pre, cur, post, heq, hpre, hcur, hfind⟩
          · refine Or.inl ⟨?_, ?_⟩
            · rw [findFit_succ_some, if_neg hfit]; exact hnone
            · intro x hx
              rcases List.mem_cons.mp hx with rfl | hx
              · exact hfit
              · exact hall x hx
          · refine Or.inr ⟨o :: pre, cur, post, by simp [heq], ?_, hcur, ?_⟩
            · intro x hx
              rcases List.mem_cons.mp hx with rfl | hx
              · exact hfit
              · exact hpre x hx
            · rw [findFit_succ_some, if_neg hfit, hfind, lastPrev_cons]

theorem findFit_some_fit {m : Mem} {bytes : Nat} :
    ∀ {fuel : Nat} {prev h pv : Option Nat} {cur : Nat},
    findFit m bytes fuel prev h = some (pv, cur) →
    (prev = none ∨ ∃ p0, prev = some p0 ∧ ¬ fitPred m bytes p0) →
    fitPred m bytes cur ∧ (pv = none ∨ ∃ p, pv = some p ∧ ¬ fitPred m bytes p) := by
  intro fuel
  induction fuel with
  | zero => intro prev h pv cur heq; cases heq
  | succ f ih =>
    intro prev h pv cur heq hprev
    cases h with
    | none => rw [findFit_none_ptr] at heq; cases heq
    | some o =>
      rw [findFit_succ_some] at heq
      by_cases hfit : fitPred m bytes o
      · rw [if_pos hfit] at heq
        obtain ⟨rfl, rfl⟩ : pv = prev ∧ cur = o := by
          constructor <;> · injection heq with h'; cases h'; rfl
        exact ⟨hfit, hprev⟩
      · rw [if_neg hfit] at heq
        exact ih heq (Or.inr ⟨o, rfl, hfit⟩)

/-! ### Pointwise description of `afsFinish` -/

theorem afs_elim {m : Mem} {info : segment_info} {bytes cur : Nat} {m' : Mem}
    {info' : segment_info}
    (heq : allocate_from_segment m info bytes = some (cur, m', info')) :
    ∃ head prev, info.free_list_head = some head ∧
      findFit m bytes FUEL none (some head) = some (prev, cur) ∧
      m' = (afsFinish m info bytes prev cur).1 ∧
      info' = (afsFinish m info bytes prev cur).2 := by
  cases hh : info.free_list_head with
  | none => simp only [allocate_from_segment, hh] at heq; cases heq
  | some head =>
    cases hf : findFit m bytes FUEL none (some head) with
    | none => simp only [allocate_from_segment, hh, hf] at heq; cases heq
    | some pc =>
      obtain ⟨prev, cur0⟩ := pc
      simp only [allocate_from_segment, hh, hf, Option.some.injEq, Prod.mk.injEq] at heq
      obtain ⟨rfl, hm, hi⟩ := heq
      exact ⟨head, prev, rfl, hf, hm.symm, hi.symm⟩

theorem afsFinish_cur {m : Mem} {info : segment_info} {bytes : Nat} {prev : Option Nat}
    {cur : Nat} (hprev : ∀ p, prev = some p → p ≠ cur) :
    ((afsFinish m info bytes prev cur).1 cur).next = none ∧
    ((afsFinish m info bytes prev cur).1 cur).size =
      (if HEADER_SIZE + 16 ≤ (m cur).size - bytes then bytes else (m cur).size) ∧
    ((afsFinish m info bytes prev cur).1 cur).is_free = false ∧
    ((afsFinish m info bytes prev cur).1 cur).is_marked = false := by
  have hhp := HEADER_SIZE_pos
  have hco : cur ≠ cur + HEADER_SIZE + bytes := by omega
  cases prev with
  | none =>
    by_cases hs : HEADER_SIZE + 16 ≤ (m cur).size - bytes <;>
      simp [afsFinish, Mem.write, hs, hco]
  | some p =>
    have hp : cur ≠ p := Ne.symm (hprev p rfl)
    by_cases hs : HEADER_SIZE + 16 ≤ (m cur).size - bytes <;>
      simp [afsFinish, Mem.write, hs, hco, hp]

theorem afsFinish_newOff {m : Mem} {info : segment_info} {bytes : Nat} {prev : Option Nat}
    {cur : Nat} (hs : HEADER_SIZE + 16 ≤ (m cur).size - bytes)
    (hprev : ∀ p, prev = some p → p ≠ cur + HEADER_SIZE + bytes) :
    ((afsFinish m info bytes prev cur).1 (cur + HEADER_SIZE + bytes)).size =
      (m cur).size - bytes - HEADER_SIZE ∧
    ((afsFinish m info bytes prev cur).1 (cur + HEADER_SIZE + bytes)).next = (m cur).next ∧
    ((afsFinish m info bytes prev cur).1 (cur + HEADER_SIZE + bytes)).is_free = true ∧
    ((afsFinish m info bytes prev cur).1 (cur + HEADER_SIZE + bytes)).is_marked = false := by
  have hhp := HEADER_SIZE_pos
  have hco : cur + HEADER_SIZE + bytes ≠ cur := by omega
  cases prev with
  | none =>
    simp [afsFinish, Mem.write, hs, hco]
  | some p =>
    have hp : cur + HEADER_SIZE + bytes ≠ p := Ne.symm (hprev p rfl)
    simp [afsFinish, Mem.write, hs, hco, hp]

theorem afsFinish_prev {m : Mem} {info : segment_info} {bytes : Nat} {p cur : Nat}
    (hpc : p ≠ cur)
    (hpn : HEADER_SIZE + 16 ≤ (m cur).size - bytes → p ≠ cur + HEADER_SIZE + bytes) :
    ((afsFinish m info bytes (some p) cur).1 p).size = (m p).size ∧
    ((afsFinish m info bytes (some p) cur).1 p).flags = (m p).flags ∧
    ((afsFinish m info bytes (some p) cur).1 p).next =
      (if HEADER_SIZE + 16 ≤ (m cur).size - bytes then some (cur + HEADER_SIZE + bytes)
       else (m cur).next) := by
  have hhp := HEADER_SIZE_pos
  have hco : cur ≠ cur + HEADER_SIZE + bytes := by omega
  by_cases hs : HEADER_SIZE + 16 ≤ (m cur).size - bytes
  · simp [afsFinish, Mem.write, hs, hco, hpc, hpn hs, Ne.symm hpc]
  · simp [afsFinish, Mem.write, hs, hco, hpc, Ne.symm hpc]

theorem afsFinish_other {m : Mem} {info : segment_info} {bytes : Nat} {prev : Option Nat}
    {cur o : Nat} (ho : o ≠ cur)
    (ho2 : HEADER_SIZE + 16 ≤ (m cur).size - bytes → o ≠ cur + HEADER_SIZE + bytes)
    (hop : ∀ p, prev = some p → o ≠ p) :
    (afsFinish m info bytes prev cur).1 o = m o := by
  cases prev with
  | none =>
    by_cases hs : HEADER_SIZE + 16 ≤ (m cur).size - bytes
    · simp [afsFinish, Mem.write, hs, ho, ho2 hs]
    · simp [afsFinish, Mem.write, hs, ho]
  | some p =>
    have hp := hop p rfl
    by_cases hs : HEADER_SIZE + 16 ≤ (m cur).size - bytes
    · simp [afsFinish, Mem.write, hs, ho, ho2 hs, hp]
    · simp [afsFinish, Mem.write, hs, ho, hp]

theorem afsFinish_head_some {m : Mem} {info : segment_info} {bytes : Nat} {p cur : Nat} :
    (afsFinish m info bytes (some p) cur).2.free_list_head = info.free_list_head := by
  simp [afsFinish]

theorem afsFinish_head_none {m : Mem} {info : segment_info} {bytes cur : Nat} :
    (afsFinish m info bytes none cur).2.free_list_head =
      (if HEADER_SIZE + 16 ≤ (m cur).size - bytes then some (cur + HEADER_SIZE + bytes)
       else (m cur).next) := by
  have hhp := HEADER_SIZE_pos
  have hco : cur ≠ cur + HEADER_SIZE + bytes := by omega
  by_cases hs : HEADER_SIZE + 16 ≤ (m cur).size - bytes <;>
    simp [afsFinish, Mem.write, hs, hco]

theorem afsFinish_free_bytes {m : Mem} {info : segment_info} {bytes : Nat} {prev : Option Nat}
    {cur : Nat} (hprev : ∀ p, prev = some p → p ≠ cur) :
    (afsFinish m info bytes prev cur).2.free_bytes =
      sub32 info.free_bytes
        ((if HEADER_SIZE + 16 ≤ (m cur).size - bytes then bytes else (m cur).size) +
          HEADER_SIZE) := by
  have hhp := HEADER_SIZE_pos
  have hco : cur ≠ cur + HEADER_SIZE + bytes := by omega
  cases prev with
  | none =>
    by_cases hs : HEADER_SIZE + 16 ≤ (m cur).size - bytes <;>
      simp [afsFinish, Mem.write, hs, hco]
  | some p =>
    have hp : cur ≠ p := Ne.symm (hprev p rfl)
    by_cases hs : HEADER_SIZE + 16 ≤ (m cur).size - bytes <;>
      simp [afsFinish, Mem.write, hs, hco, hp]

theorem header.is_free_congr {h1 h2 : header} (h : h1.flags = h2.flags) :
    h1.is_free = h2.is_free := by
  simp [header.is_free, h]

theorem header.is_marked_congr {h1 h2 : header} (h : h1.flags = h2.flags) :
    h1.is_marked = h2.is_marked := by
  simp [header.is_marked, h]

theorem FollowTo.append_elim {m : Mem} {p q : Option Nat} :
    ∀ {L1 L2 : List Nat}, FollowTo m p q (L1 ++ L2) →
    ∃ r, FollowTo m p r L1 ∧ FollowTo m r q L2 := by
  intro L1
  induction L1 generalizing p with
  | nil => intro L2 h; exact ⟨p, FollowTo.nil _, h⟩
  | cons o L1 ih =>
    intro L2 h
    cases h with
    | cons h2 =>
      obtain ⟨r, hr1, hr2⟩ := ih h2
      exact ⟨r, FollowTo.cons hr1, hr2⟩

theorem lastPrev_eq_getLast (pre : List Nat) (hne : pre ≠ []) (prev : Option Nat) :
    lastPrev pre prev = some (pre.getLast hne) := by
  unfold lastPrev
  rw [List.getLast?_eq_getLast pre hne]

theorem getLast_not_mem_dropLast (l : List Nat) (hne : l ≠ []) (hnd : l.Nodup) :
    l.getLast hne ∉ l.dropLast := by
  have hdl : l.dropLast ++ [l.getLast hne] = l := List.dropLast_append_getLast hne
  intro hmem
  rw [← hdl] at hnd
  obtain ⟨_, _, hdisj⟩ := List.nodup_append.mp hnd
  exact hdisj hmem (by simp)

theorem chain_length_le_FUEL {m : Mem} {L : List Nat} (h : ChainTo m 0 SEGMENT_SIZE L) :
    L.length ≤ FUEL := by
  have := h.length_le
  norm_num [HEADER_SIZE, SEGMENT_SIZE, FUEL] at this ⊢
  omega

/-- The allocated block as `allocate_from_segment` returns it: at least the
requested size, not free, not marked, `next` cleared. -/
theorem afs_post {m : Mem} {info : segment_info} {bytes cur : Nat} {m' : Mem}
    {info' : segment_info}
    (heq : allocate_from_segment m info bytes = some (cur, m', info')) :
    bytes ≤ (m' cur).size ∧ (m' cur).is_free = false ∧ (m' cur).is_marked = false ∧
    (m' cur).next = none := by
  obtain ⟨head, prev, hh, hf, rfl, rfl⟩ := afs_elim heq
  have hfit := findFit_some_fit hf (Or.inl rfl)
  have hprev : ∀ p, prev = some p → p ≠ cur := by
    intro p hp
    rcases hfit.2 with h | ⟨p2, hp2, hnf⟩
    · rw [hp] at h; cases h
    · rw [hp] at hp2
      injection hp2 with e
      subst e
      intro e2
      exact hnf (e2 ▸ hfit.1)
  obtain ⟨hnext, hsize, hfree, hmarked⟩ := afsFinish_cur hprev
  refine ⟨?_, hfree, hmarked, hnext⟩
  rw [hsize]
  split
  · exact le_refl _
  · exact hfit.1.2

/-- A successful `allocate_from_segment`, run on a tiled chain with a valid
free list: the chain still tiles the segment, the surgically rebuilt free
list is still an acyclic chain of free blocks, its byte sum drops by exactly
the allocated block's `size + 16` — the amount debited from `free_bytes` —
and no zero-size block appears as long as the request is nonzero. -/
theorem afs_preserves_parts {m : Mem} {info : segment_info} {bytes cur : Nat} {m' : Mem}
    {info' : segment_info} {blocks fl : List Nat}
    (hchain : ChainTo m 0 SEGMENT_SIZE blocks)
    (hrep : FreeListRep m info.free_list_head fl)
    (hnd : fl.Nodup)
    (hmemf : ∀ o ∈ fl, o ∈ blocks ∧ (m o).is_free = true)
    (heq : allocate_from_segment m info bytes = some (cur, m', info')) :
    ∃ blocks2 fl2,
      ChainTo m' 0 SEGMENT_SIZE blocks2 ∧
      FreeListRep m' info'.free_list_head fl2 ∧
      fl2.Nodup ∧
      (∀ o ∈ fl2, o ∈ blocks2 ∧ (m' o).is_free = true) ∧
      sumBytes m' fl2 + ((m' cur).size + HEADER_SIZE) = sumBytes m fl ∧
      info'.free_bytes = sub32 info.free_bytes ((m' cur).size + HEADER_SIZE) ∧
      ((∀ x ∈ blocks, (m x).size ≠ 0) → 1 ≤ bytes → ∀ x ∈ blocks2, (m' x).size ≠ 0) ∧
      (HEADER_SIZE + 16 ≤ (m cur).size - bytes →
        (m' (cur + HEADER_SIZE + bytes)).size = (m cur).size - bytes - HEADER_SIZE ∧
        (m' (cur + HEADER_SIZE + bytes)).is_free = true ∧
        (m' (cur + HEADER_SIZE + bytes)).is_marked = false ∧
        (m' cur).size = bytes) := by
  obtain ⟨head, prev, hh, hf, rfl, rfl⟩ := afs_elim heq
  rw [hh] at hrep
  have hhp := HEADER_SIZE_pos
  have hsubs : ∀ o ∈ fl, o ∈ blocks := fun o ho => (hmemf o ho).1
  have hndblocks : blocks.Nodup := hchain.nodup
  have hlenfl : fl.length ≤ FUEL :=
    le_trans (nodup_length_le_of_subset hnd hsubs) (chain_length_le_FUEL hchain)
  rcases @findFit_cases m bytes fl FUEL none _ hrep hlenfl with
    ⟨hnone, _⟩ | ⟨pre, cur0, post, hfl, hpreNoFit, hfit, hfind⟩
  · rw [hf] at hnone; cases hnone
  rw [hf] at hfind
  simp only [Option.some.injEq, Prod.mk.injEq] at hfind
  obtain ⟨hprev_eq, rfl⟩ := hfind
  subst hprev_eq
  -- basic facts about the hit block
  have hcurfl : cur ∈ fl := by rw [hfl]; simp
  have hcurblocks : cur ∈ blocks := hsubs cur hcurfl
  obtain ⟨B1, B2, hB, hcB1, hcB2⟩ := hchain.mem_split hcurblocks
  have hcB2' : ChainTo m (cur + HEADER_SIZE + (m cur).size) SEGMENT_SIZE B2 := by
    cases hcB2 with | cons h => exact h
  have hB1lt : ∀ x ∈ B1, x + HEADER_SIZE + (m x).size ≤ cur :=
    fun x hx => (hcB1.mem_bounds x hx).2
  have hB2ge : ∀ x ∈ B2, cur + HEADER_SIZE + (m cur).size ≤ x :=
    fun x hx => (hcB2'.mem_bounds x hx).1
  -- decompose the free-list Nodup
  rw [hfl] at hnd
  obtain ⟨hndpre, hndcp, hdisj⟩ := List.nodup_append.mp hnd
  obtain ⟨hcurpost, hndpost⟩ := List.nodup_cons.mp hndcp
  have hcurpre : cur ∉ pre := fun hcp => hdisj hcp (List.mem_cons_self _ _)
  have hprepost : ∀ a ∈ pre, a ∉ post := fun a ha hap => hdisj ha (List.mem_cons_of_mem _ hap)
  -- the new block offset is interior to the hit block, hence off-chain
  have hnewoff_notin : HEADER_SIZE + 16 ≤ (m cur).size - bytes →
      cur + HEADER_SIZE + bytes ∉ blocks := by
    intro hs hmb
    rw [hB] at hmb
    rcases List.mem_append.mp hmb with hx | hx
    · have := hB1lt _ hx; omega
    · rcases List.mem_cons.mp hx with he | hx
      · omega
      · have := hB2ge _ hx; omega
  -- the reported prev: the last passed-over node
  have hprev_last : ∀ p', lastPrev pre none = some p' → ∃ hne : pre ≠ [], p' = pre.getLast hne := by
    intro p' hp'
    cases pre with
    | nil => rw [lastPrev_nil] at hp'; cases hp'
    | cons p0 pre1 =>
      rw [lastPrev_eq_getLast _ (by simp)] at hp'
      injection hp' with e
      exact ⟨by simp, e.symm⟩
  have hprev_mem : ∀ p', lastPrev pre none = some p' → p' ∈ pre := by
    intro p' hp'
    obtain ⟨hne, rfl⟩ := hprev_last p' hp'
    exact List.getLast_mem hne
  have hprev_cur : ∀ p', lastPrev pre none = some p' → p' ≠ cur :=
    fun p' hp' he => absurd (he ▸ hprev_mem p' hp') hcurpre
  have hprev_new : HEADER_SIZE + 16 ≤ (m cur).size - bytes →
      ∀ p', lastPrev pre none = some p' → p' ≠ cur + HEADER_SIZE + bytes := by
    intro hs p' hp' he
    apply hnewoff_notin hs
    rw [← he]
    apply hsubs
    rw [hfl]
    exact List.mem_append.mpr (Or.inl (hprev_mem p' hp'))
  -- field preservation away from the written offsets
  have hM_pres : ∀ o, o ≠ cur →
      (HEADER_SIZE + 16 ≤ (m cur).size - bytes → o ≠ cur + HEADER_SIZE + bytes) →
      ((afsFinish m info bytes (lastPrev pre none) cur).1 o).size = (m o).size ∧
      ((afsFinish m info bytes (lastPrev pre none) cur).1 o).flags = (m o).flags := by
    intro o ho hs2
    cases hpn : lastPrev pre none with
    | none =>
      rw [afsFinish_other ho hs2 (fun p hp => Option.noConfusion hp)]
      exact ⟨rfl, rfl⟩
    | some p =>
      by_cases hop : o = p
      · subst hop
        have h3 := @afsFinish_prev m info bytes o cur
          (hprev_cur o hpn) (fun hsx => hprev_new hsx o hpn)
        exact ⟨h3.1, h3.2.1⟩
      · rw [afsFinish_other ho hs2
          (fun p2 hp2 => by injection hp2 with e; exact e ▸ hop)]
        exact ⟨rfl, rfl⟩
  have hM_next : ∀ o, o ≠ cur →
      (HEADER_SIZE + 16 ≤ (m cur).size - bytes → o ≠ cur + HEADER_SIZE + bytes) →
      (∀ p', lastPrev pre none = some p' → o ≠ p') →
      ((afsFinish m info bytes (lastPrev pre none) cur).1 o).next = (m o).next := by
    intro o ho hs2 hop
    rw [afsFinish_other ho hs2 hop]
  -- decompose the original free-list run around cur
  subst hfl
  obtain ⟨r, hpre_follow, hcpost⟩ := FollowTo.append_elim hrep
  have hr_cur : r = some cur := by cases hcpost with | cons h => rfl
  subst hr_cur
  have hpost : FollowTo m (m cur).next none post := by cases hcpost with | cons h => exact h
  -- sums and bounds
  have hsum_blocks : sumBytes m blocks = SEGMENT_SIZE := by
    have := hchain.sum
    omega
  have hfl_le : sumBytes m (pre ++ cur :: post) ≤ SEGMENT_SIZE := by
    rw [← hsum_blocks]
    exact sumBytes_le_of_subset hnd hndblocks hsubs
  have hfit_le : bytes ≤ (m cur).size := hfit.2
  have hcur_free : (m cur).is_free = true := hfit.1
  -- the allocated block's final fields
  obtain ⟨hcnext, hcsize0, hcfree, hcmarked⟩ :=
    @afsFinish_cur m info bytes (lastPrev pre none) cur hprev_cur
  have hinfo_bytes := @afsFinish_free_bytes m info bytes (lastPrev pre none) cur hprev_cur
  by_cases hs : HEADER_SIZE + 16 ≤ (m cur).size - bytes
  · -- split: a new free block is carved at cur + 16 + bytes
    obtain ⟨hnoSize, hnoNext, hnoFree, hnoMarked⟩ :=
      @afsFinish_newOff m info bytes (lastPrev pre none) cur hs
        (fun p' hp' => hprev_new hs p' hp')
    have hcsize : ((afsFinish m info bytes (lastPrev pre none) cur).1 cur).size = bytes := by
      rw [hcsize0, if_pos hs]
    have hfB1 : ∀ x ∈ B1,
        ((afsFinish m info bytes (lastPrev pre none) cur).1 x).size = (m x).size := by
      intro x hx
      have hb := hB1lt x hx
      exact (hM_pres x (by omega) (fun _ => by omega)).1
    have hfB2 : ∀ x ∈ B2,
        ((afsFinish m info bytes (lastPrev pre none) cur).1 x).size = (m x).size := by
      intro x hx
      have hb := hB2ge x hx
      exact (hM_pres x (by omega) (fun _ => by omega)).1
    have hchain2 : ChainTo (afsFinish m info bytes (lastPrev pre none) cur).1 0 SEGMENT_SIZE
        (B1 ++ cur :: (cur + HEADER_SIZE + bytes) :: B2) := by
      have hc1 : ChainTo (afsFinish m info bytes (lastPrev pre none) cur).1 0 cur B1 :=
        hcB1.frame hfB1
      have hcB2f : ChainTo (afsFinish m info bytes (lastPrev pre none) cur).1
          (cur + HEADER_SIZE + (m cur).size) SEGMENT_SIZE B2 := hcB2'.frame hfB2
      have hstep2 : (cur + HEADER_SIZE + bytes) + HEADER_SIZE +
          ((afsFinish m info bytes (lastPrev pre none) cur).1 (cur + HEADER_SIZE + bytes)).size =
          cur + HEADER_SIZE + (m cur).size := by
        rw [hnoSize]; omega
      have hc3 : ChainTo (afsFinish m info bytes (lastPrev pre none) cur).1
          (cur + HEADER_SIZE + bytes) SEGMENT_SIZE ((cur + HEADER_SIZE + bytes) :: B2) := by
        refine ChainTo.cons ?_
        rw [hstep2]
        exact hcB2f
      have hc2 : ChainTo (afsFinish m info bytes (lastPrev pre none) cur).1 cur SEGMENT_SIZE
          (cur :: (cur + HEADER_SIZE + bytes) :: B2) := by
        refine ChainTo.cons ?_
        rw [hcsize]
        exact hc3
      exact hc1.append hc2
    have hpost_frame : FollowTo (afsFinish m info bytes (lastPrev pre none) cur).1
        (m cur).next none post := by
      refine hpost.frame_next ?_
      intro x hx
      have hx_ne_cur : x ≠ cur := fun e => hcurpost (e ▸ hx)
      have hx_blocks : x ∈ blocks := hsubs x (by simp [hx])
      have hx_ne_new : x ≠ cur + HEADER_SIZE + bytes := fun e => hnewoff_notin hs (e ▸ hx_blocks)
      have hx_ne_p : ∀ p', lastPrev pre none = some p' → x ≠ p' := by
        intro p' hp' e
        exact hprepost p' (hprev_mem p' hp') (e ▸ hx)
      exact hM_next x hx_ne_cur (fun _ => hx_ne_new) hx_ne_p
    have hnew_follow : FollowTo (afsFinish m info bytes (lastPrev pre none) cur).1
        (some (cur + HEADER_SIZE + bytes)) none ((cur + HEADER_SIZE + bytes) :: post) := by
      refine FollowTo.cons ?_
      rw [hnoNext]
      exact hpost_frame
    have hfull_follow : FollowTo (afsFinish m info bytes (lastPrev pre none) cur).1
        ((afsFinish m info bytes (lastPrev pre none) cur).2.free_list_head) none
        (pre ++ (cur + HEADER_SIZE + bytes) :: post) := by
      cases hpn : lastPrev pre none with
      | none =>
        have hpre_nil : pre = [] := by
          cases pre with
          | nil => rfl
          | cons p0 pre1 => rw [lastPrev_eq_getLast _ (by simp)] at hpn; cases hpn
        subst hpre_nil
        simp only [hpn] at hnew_follow
        rw [afsFinish_head_none, if_pos hs]
        simpa using hnew_follow
      | some p =>
        obtain ⟨hne, hp_eq⟩ := hprev_last p hpn
        simp only [hpn] at hnew_follow hM_next
        rw [afsFinish_head_some, hh]
        have h3 := @afsFinish_prev m info bytes p cur
          (hprev_cur p hpn) (fun hsx => hprev_new hsx p hpn)
        have hretarget : FollowTo (afsFinish m info bytes (some p) cur).1 (some head)
            (some (cur + HEADER_SIZE + bytes)) pre := by
          refine hpre_follow.retarget hne hndpre ?_ ?_
          · intro hne2
            have : pre.getLast hne2 = p := hp_eq.symm
            rw [this, h3.2.2, if_pos hs]
          · intro x hx
            have hx_pre : x ∈ pre := List.dropLast_subset _ hx
            have hx_ne_cur : x ≠ cur := fun e => hcurpre (e ▸ hx_pre)
            have hx_blocks : x ∈ blocks := hsubs x (by simp [hx_pre])
            have hx_ne_new : x ≠ cur + HEADER_SIZE + bytes :=
              fun e => hnewoff_notin hs (e ▸ hx_blocks)
            have hx_ne_p : x ≠ p := by
              intro e
              have := getLast_not_mem_dropLast pre hne hndpre
              rw [hp_eq] at e
              exact this (e ▸ hx)
            exact hM_next x hx_ne_cur (fun _ => hx_ne_new)
              (fun p2 hp2 => by injection hp2 with e2; exact e2 ▸ hx_ne_p)
        exact hretarget.append_runs hnew_follow
    have hnd2 : (pre ++ (cur + HEADER_SIZE + bytes) :: post).Nodup := by
      refine List.nodup_append.mpr ⟨hndpre, ?_, ?_⟩
      · refine List.nodup_cons.mpr ⟨?_, hndpost⟩
        intro hmem2
        exact hnewoff_notin hs (hsubs _ (by simp [hmem2]))
      · intro a ha hmem2
        rcases List.mem_cons.mp hmem2 with rfl | hap
        · exact hnewoff_notin hs (hsubs _ (by simp [ha]))
        · exact hprepost a ha hap
    have hmem2 : ∀ o ∈ pre ++ (cur + HEADER_SIZE + bytes) :: post,
        o ∈ B1 ++ cur :: (cur + HEADER_SIZE + bytes) :: B2 ∧
        ((afsFinish m info bytes (lastPrev pre none) cur).1 o).is_free = true := by
      intro o ho
      have hold : ∀ o2, o2 ∈ pre ∨ o2 ∈ post →
          o2 ∈ B1 ++ cur :: (cur + HEADER_SIZE + bytes) :: B2 ∧
          ((afsFinish m info bytes (lastPrev pre none) cur).1 o2).is_free = true := by
        intro o2 ho2
        have hofl : o2 ∈ pre ++ cur :: post := by
          rcases ho2 with h | h <;> simp [h]
        have hobl := hsubs o2 hofl
        have ho_ne_cur : o2 ≠ cur := by
          intro e
          rcases ho2 with h | h
          · exact hcurpre (e ▸ h)
          · exact hcurpost (e ▸ h)
        have ho_ne_new : o2 ≠ cur + HEADER_SIZE + bytes :=
          fun e => hnewoff_notin hs (e ▸ hobl)
        constructor
        · rw [hB] at hobl
          rcases List.mem_append.mp hobl with h | h
          · exact List.mem_append.mpr (Or.inl h)
          · rcases List.mem_cons.mp h with rfl | h
            · simp
            · simp [h]
        · have hfree : ((afsFinish m info bytes (lastPrev pre none) cur).1 o2).is_free =
              (m o2).is_free :=
            header.is_free_congr (hM_pres o2 ho_ne_cur (fun _ => ho_ne_new)).2
          rw [hfree]
          exact (hmemf o2 hofl).2
      rcases List.mem_append.mp ho with hopre | hrest
      · exact hold o (Or.inl hopre)
      · rcases List.mem_cons.mp hrest with rfl | hopost
        · exact ⟨by simp, hnoFree⟩
        · exact hold o (Or.inr hopost)
    have hspre : sumBytes (afsFinish m info bytes (lastPrev pre none) cur).1 pre =
        sumBytes m pre := by
      refine sumBytes_congr ?_
      intro o ho
      have ho_ne_cur : o ≠ cur := fun e => hcurpre (e ▸ ho)
      have ho_ne_new : o ≠ cur + HEADER_SIZE + bytes :=
        fun e => hnewoff_notin hs (e ▸ hsubs o (by simp [ho]))
      exact (hM_pres o ho_ne_cur (fun _ => ho_ne_new)).1
    have hspost : sumBytes (afsFinish m info bytes (lastPrev pre none) cur).1 post =
        sumBytes m post := by
      refine sumBytes_congr ?_
      intro o ho
      have ho_ne_cur : o ≠ cur := fun e => hcurpost (e ▸ ho)
      have ho_ne_new : o ≠ cur + HEADER_SIZE + bytes :=
        fun e => hnewoff_notin hs (e ▸ hsubs o (by simp [ho]))
      exact (hM_pres o ho_ne_cur (fun _ => ho_ne_new)).1
    have hsum2 : sumBytes (afsFinish m info bytes (lastPrev pre none) cur).1
        (pre ++ (cur + HEADER_SIZE + bytes) :: post) +
        (((afsFinish m info bytes (lastPrev pre none) cur).1 cur).size + HEADER_SIZE) =
        sumBytes m (pre ++ cur :: post) := by
      rw [hcsize, sumBytes_append, sumBytes_cons, hspre, hspost, hnoSize,
        sumBytes_append, sumBytes_cons]
      omega
    have hfb2 : (afsFinish m info bytes (lastPrev pre none) cur).2.free_bytes =
        sub32 info.free_bytes
          (((afsFinish m info bytes (lastPrev pre none) cur).1 cur).size + HEADER_SIZE) := by
      rw [hinfo_bytes, if_pos hs, hcsize]
    have hpos2 : (∀ x ∈ blocks, (m x).size ≠ 0) → 1 ≤ bytes →
        ∀ x ∈ B1 ++ cur :: (cur + HEADER_SIZE + bytes) :: B2,
        ((afsFinish m info bytes (lastPrev pre none) cur).1 x).size ≠ 0 := by
      intro hpos hb x hx
      rcases List.mem_append.mp hx with hx1 | hx2
      · rw [hfB1 x hx1]
        exact hpos x (by rw [hB]; exact List.mem_append.mpr (Or.inl hx1))
      · rcases List.mem_cons.mp hx2 with rfl | hx3
        · rw [hcsize]; omega
        · rcases List.mem_cons.mp hx3 with rfl | hx4
          · rw [hnoSize]; omega
          · rw [hfB2 x hx4]
            exact hpos x (by rw [hB]; simp [hx4])
    exact ⟨B1 ++ cur :: (cur + HEADER_SIZE + bytes) :: B2,
      pre ++ (cur + HEADER_SIZE + bytes) :: post, hchain2, hfull_follow, hnd2, hmem2, hsum2,
      hfb2, hpos2, fun _ => ⟨hnoSize, hnoFree, hnoMarked, hcsize⟩⟩
  · -- no split: the block is handed out whole
    have hcsize : ((afsFinish m info bytes (lastPrev pre none) cur).1 cur).size = (m cur).size := by
      rw [hcsize0, if_neg hs]
    have hchain2 : ChainTo (afsFinish m info bytes (lastPrev pre none) cur).1 0 SEGMENT_SIZE
        blocks := by
      refine hchain.frame ?_
      intro x hx
      by_cases hxc : x = cur
      · subst hxc; exact hcsize
      · exact (hM_pres x hxc (fun hsx => absurd hsx hs)).1
    have hpost_frame : FollowTo (afsFinish m info bytes (lastPrev pre none) cur).1
        (m cur).next none post := by
      refine hpost.frame_next ?_
      intro x hx
      have hx_ne_cur : x ≠ cur := fun e => hcurpost (e ▸ hx)
      have hx_ne_p : ∀ p', lastPrev pre none = some p' → x ≠ p' := fun p' hp' e =>
        hprepost p' (hprev_mem p' hp') (e ▸ hx)
      exact hM_next x hx_ne_cur (fun hsx => absurd hsx hs) hx_ne_p
    have hfull_follow : FollowTo (afsFinish m info bytes (lastPrev pre none) cur).1
        ((afsFinish m info bytes (lastPrev pre none) cur).2.free_list_head) none
        (pre ++ post) := by
      cases hpn : lastPrev pre none with
      | none =>
        have hpre_nil : pre = [] := by
          cases pre with
          | nil => rfl
          | cons p0 pre1 => rw [lastPrev_eq_getLast _ (by simp)] at hpn; cases hpn
        subst hpre_nil
        simp only [hpn] at hpost_frame
        rw [afsFinish_head_none, if_neg hs]
        simpa using hpost_frame
      | some p =>
        obtain ⟨hne, hp_eq⟩ := hprev_last p hpn
        simp only [hpn] at hpost_frame hM_next
        rw [afsFinish_head_some, hh]
        have h3 := @afsFinish_prev m info bytes p cur
          (hprev_cur p hpn) (fun hsx => absurd hsx hs)
        have hretarget : FollowTo (afsFinish m info bytes (some p) cur).1 (some head)
            ((m cur).next) pre := by
          refine hpre_follow.retarget hne hndpre ?_ ?_
          · intro hne2
            have he : pre.getLast hne2 = p := hp_eq.symm
            rw [he, h3.2.2, if_neg hs]
          · intro x hx
            have hx_pre : x ∈ pre := List.dropLast_subset _ hx
            have hx_ne_cur : x ≠ cur := fun e => hcurpre (e ▸ hx_pre)
            have hx_ne_p : x ≠ p := by
              intro e
              have := getLast_not_mem_dropLast pre hne hndpre
              rw [hp_eq] at e
              exact this (e ▸ hx)
            exact hM_next x hx_ne_cur (fun hsx => absurd hsx hs)
              (fun p2 hp2 => by injection hp2 with e2; exact e2 ▸ hx_ne_p)
        exact hretarget.append_runs hpost_frame
    have hnd2 : (pre ++ post).Nodup :=
      hnd.sublist (List.Sublist.append_left (List.sublist_cons_self _ _) pre)
    have hmem2 : ∀ o ∈ pre ++ post, o ∈ blocks ∧
        ((afsFinish m info bytes (lastPrev pre none) cur).1 o).is_free = true := by
      intro o ho
      have ho2 : o ∈ pre ∨ o ∈ post := List.mem_append.mp ho
      have hofl : o ∈ pre ++ cur :: post := by rcases ho2 with h | h <;> simp [h]
      have ho_ne_cur : o ≠ cur := by
        intro e
        rcases ho2 with h | h
        · exact hcurpre (e ▸ h)
        · exact hcurpost (e ▸ h)
      refine ⟨(hmemf o hofl).1, ?_⟩
      have hfree := header.is_free_congr (hM_pres o ho_ne_cur (fun hsx => absurd hsx hs)).2
      rw [hfree]
      exact (hmemf o hofl).2
    have hspre : sumBytes (afsFinish m info bytes (lastPrev pre none) cur).1 pre =
        sumBytes m pre := by
      refine sumBytes_congr ?_
      intro o ho
      have ho_ne_cur : o ≠ cur := fun e => hcurpre (e ▸ ho)
      exact (hM_pres o ho_ne_cur (fun hsx => absurd hsx hs)).1
    have hspost : sumBytes (afsFinish m info bytes (lastPrev pre none) cur).1 post =
        sumBytes m post := by
      refine sumBytes_congr ?_
      intro o ho
      have ho_ne_cur : o ≠ cur := fun e => hcurpost (e ▸ ho)
      exact (hM_pres o ho_ne_cur (fun hsx => absurd hsx hs)).1
    have hsum2 : sumBytes (afsFinish m info bytes (lastPrev pre none) cur).1 (pre ++ post) +
        (((afsFinish m info bytes (lastPrev pre none) cur).1 cur).size + HEADER_SIZE) =
        sumBytes m (pre ++ cur :: post) := by
      rw [hcsize, sumBytes_append, hspre, hspost, sumBytes_append, sumBytes_cons]
      omega
    have hfb2 : (afsFinish m info bytes (lastPrev pre none) cur).2.free_bytes =
        sub32 info.free_bytes
          (((afsFinish m info bytes (lastPrev pre none) cur).1 cur).size + HEADER_SIZE) := by
      rw [hinfo_bytes, if_neg hs, hcsize]
    have hpos2 : (∀ x ∈ blocks, (m x).size ≠ 0) → 1 ≤ bytes →
        ∀ x ∈ blocks,
        ((afsFinish m info bytes (lastPrev pre none) cur).1 x).size ≠ 0 := by
      intro hpos hb x hx
      by_cases hxc : x = cur
      · subst hxc
        rw [hcsize]
        exact hpos x hx
      · rw [(hM_pres x hxc (fun hsx => absurd hsx hs)).1]
        exact hpos x hx
    exact ⟨blocks, pre ++ post, hchain2, hfull_follow, hnd2, hmem2, hsum2, hfb2, hpos2,
      fun hsx => absurd hsx hs⟩

/-! ### Mark-phase lemmas -/

theorem markSeg_nil (m : Mem) : markSeg m [] = m := rfl

theorem markSeg_cons (m : Mem) (a : Nat) (rs : List Nat) :
    markSeg m (a :: rs) = markSeg (Mem.write m a ((m a).set_marked true)) rs := rfl

theorem markSeg_fields (roots : List Nat) : ∀ (m : Mem) (o : Nat),
    (markSeg m roots o).size = (m o).size ∧ (markSeg m roots o).next = (m o).next ∧
    (markSeg m roots o).is_free = (m o).is_free := by
  induction roots with
  | nil => intro m o; exact ⟨rfl, rfl, rfl⟩
  | cons a rs ih =>
    intro m o
    rw [markSeg_cons]
    have h1 := ih (Mem.write m a ((m a).set_marked true)) o
    by_cases hoa : o = a
    · subst hoa
      simp only [Mem.write_at] at h1
      simpa using h1
    · rw [Mem.write_ne _ _ hoa] at h1
      exact h1

theorem markSeg_is_marked_of_not_mem (roots : List Nat) : ∀ (m : Mem) (o : Nat), o ∉ roots →
    (markSeg m roots o).is_marked = (m o).is_marked := by
  induction roots with
  | nil => intro m o _; rfl
  | cons a rs ih =>
    intro m o ho
    have hoa : o ≠ a := fun e => ho (e ▸ List.mem_cons_self _ _)
    have hors : o ∉ rs := fun h => ho (List.mem_cons_of_mem _ h)
    rw [markSeg_cons, ih _ o hors, Mem.write_ne _ _ hoa]

theorem markSeg_is_marked_of_mem (roots : List Nat) : ∀ (m : Mem) (o : Nat), o ∈ roots →
    (markSeg m roots o).is_marked = true := by
  induction roots with
  | nil => intro m o h; simp at h
  | cons a rs ih =>
    intro m o ho
    rw [markSeg_cons]
    by_cases hors : o ∈ rs
    · exact ih _ o hors
    · have hoa : o = a := by
        rcases List.mem_cons.mp ho with h | h
        · exact h
        · exact absurd h hors
      subst hoa
      rw [markSeg_is_marked_of_not_mem rs _ o hors, Mem.write_at]
      simp

/-! ### Sweep-phase lemmas -/

/-- What the sweep does to one header: clear the mark, or flag free. -/
def sweepStep (h : header) : header :=
  if h.is_marked = true then h.set_marked false else h.set_free true

@[simp] theorem sweepStep_size (h : header) : (sweepStep h).size = h.size := by
  unfold sweepStep; split <;> simp

@[simp] theorem sweepStep_is_marked (h : header) : (sweepStep h).is_marked = false := by
  unfold sweepStep
  split
  · simp
  · simp_all

theorem sweepStep_is_free (h : header) :
    (sweepStep h).is_free = (if h.is_marked = true then h.is_free else true) := by
  unfold sweepStep; split <;> simp

theorem sweep_segment_desc :
    ∀ {L : List Nat} {m : Mem} {a fuel : Nat}, ChainTo m a SEGMENT_SIZE L →
    L.length < fuel →
    (∀ x ∈ L, sweep_segment m fuel a x = sweepStep (m x)) ∧
    (∀ o, o ∉ L → sweep_segment m fuel a o = m o) := by
  intro L
  induction L with
  | nil =>
    intro m a fuel hch hlen
    have ha : a = SEGMENT_SIZE := by cases hch; rfl
    match fuel, hlen with
    | f + 1, _ =>
      rw [sweep_segment]
      have hhp := HEADER_SIZE_pos
      rw [if_neg (by omega)]
      exact ⟨by simp, fun o _ => rfl⟩
  | cons x L ih =>
    intro m a fuel hch hlen
    have hx : x = a := hch.head_eq
    subst hx
    have htail : ChainTo m (x + HEADER_SIZE + (m x).size) SEGMENT_SIZE L := by
      cases hch with | cons h => exact h
    have hxend : x + HEADER_SIZE + (m x).size ≤ SEGMENT_SIZE := htail.le
    have hLgt : ∀ y ∈ L, x + HEADER_SIZE + (m x).size ≤ y := by
      intro y hy
      exact (htail.mem_bounds y hy).1
    have hhp := HEADER_SIZE_pos
    match fuel, hlen with
    | f + 1, hlen =>
      rw [sweep_segment]
      rw [if_pos (by omega)]
      have hm1at : (Mem.write m x (sweepStep (m x))) x = sweepStep (m x) := Mem.write_at _ _ _
      have hwrite_eq : (if (m x).is_marked = true then Mem.write m x ((m x).set_marked false)
          else Mem.write m x ((m x).set_free true)) = Mem.write m x (sweepStep (m x)) := by
        unfold sweepStep
        split <;> rfl
      rw [hwrite_eq, hm1at]
      have htail1 : ChainTo (Mem.write m x (sweepStep (m x))) (x + HEADER_SIZE + (m x).size)
          SEGMENT_SIZE L := by
        refine htail.frame ?_
        intro y hy
        rw [Mem.write_ne _ _ (by have := hLgt y hy; omega)]
      have hlen1 : L.length < f := by simpa using hlen
      obtain ⟨h1, h2⟩ := ih htail1 hlen1
      have hsz : (sweepStep (m x)).size = (m x).size := sweepStep_size _
      rw [hsz]
      constructor
      · intro y hy
        rcases List.mem_cons.mp hy with rfl | hy2
        · have hynot : y ∉ L := fun h => by have := hLgt y h; omega
          rw [h2 y hynot, hm1at]
        · rw [h1 y hy2, Mem.write_ne _ _ (by have := hLgt y hy2; omega)]
      · intro o ho
        have ho1 : o ≠ x := fun e => ho (e ▸ List.mem_cons_self _ _)
        have ho2 : o ∉ L := fun h => ho (List.mem_cons_of_mem _ h)
        rw [h2 o ho2, Mem.write_ne _ _ ho1]

/-! ### Coalesce-phase lemmas -/

theorem ChainTo.nil_inv {m : Mem} {a b : Nat} (h : ChainTo m a b []) : a = b := by
  cases h; rfl

theorem ChainTo.cons_elim {m : Mem} {a b x : Nat} {L : List Nat} (h : ChainTo m a b (x :: L)) :
    x = a ∧ ChainTo m (x + HEADER_SIZE + (m x).size) b L := by
  cases h with | cons h2 => exact ⟨rfl, h2⟩

/-- The inner merge loop absorbs exactly the maximal run `F` of free blocks
following a free block, leaving the chain to continue with `R` (whose head,
if any, is not free). -/
theorem coalesceMerge_spec :
    ∀ {F : List Nat} {m : Mem} {cur : Nat} {R : List Nat} {fuel : Nat},
    ChainTo m cur SEGMENT_SIZE (cur :: (F ++ R)) →
    (m cur).is_free = true →
    (∀ x ∈ F, (m x).is_free = true) →
    (∀ r0, R.head? = some r0 → (m r0).is_free = false) →
    F.length ≤ fuel →
    (∀ o, o ≠ cur → coalesceMerge m cur fuel o = m o) ∧
    (coalesceMerge m cur fuel cur).size = (m cur).size + sumBytes m F ∧
    (coalesceMerge m cur fuel cur).next = (m cur).next ∧
    (coalesceMerge m cur fuel cur).flags = (m cur).flags ∧
    ChainTo (coalesceMerge m cur fuel) cur SEGMENT_SIZE (cur :: R) := by
  intro F
  induction F with
  | nil =>
    intro m cur R fuel hch hfree _ hR _
    have hhp := HEADER_SIZE_pos
    have hid : coalesceMerge m cur fuel = m := by
      cases fuel with
      | zero => rfl
      | succ f =>
        rw [coalesceMerge]
        cases R with
        | nil =>
          have hend : cur + HEADER_SIZE + (m cur).size = SEGMENT_SIZE := by
            have : ChainTo m (cur + HEADER_SIZE + (m cur).size) SEGMENT_SIZE [] := by
              cases hch with | cons h => simpa using h
            exact this.nil_inv
          rw [if_neg (by omega)]
        | cons r0 R2 =>
          have htail : ChainTo m (cur + HEADER_SIZE + (m cur).size) SEGMENT_SIZE (r0 :: R2) := by
            cases hch with | cons h => simpa using h
          have hr0 : r0 = cur + HEADER_SIZE + (m cur).size := htail.head_eq
          have hr0b := (htail.mem_bounds r0 (List.mem_cons_self _ _)).2
          rw [if_pos (by omega)]
          rw [if_neg ?_]
          rw [← hr0]
          intro hcond
          have := hR r0 rfl
          rw [this] at hcond
          exact absurd hcond.2 (by simp)
    rw [hid]
    refine ⟨fun o _ => rfl, by simp [sumBytes_nil], rfl, rfl, by simpa using hch⟩
  | cons f0 F2 ih =>
    intro m cur R fuel hch hfree hF hR hlen
    have hhp := HEADER_SIZE_pos
    match fuel, hlen with
    | fl + 1, hlen =>
      have htail : ChainTo m (cur + HEADER_SIZE + (m cur).size) SEGMENT_SIZE (f0 :: (F2 ++ R)) := by
        cases hch with | cons h => simpa using h
      have hf0 : f0 = cur + HEADER_SIZE + (m cur).size := htail.head_eq
      have hf0b := (htail.mem_bounds f0 (List.mem_cons_self _ _)).2
      have htail2 : ChainTo m (f0 + HEADER_SIZE + (m f0).size) SEGMENT_SIZE (F2 ++ R) :=
        htail.cons_elim.2
      have hf0free : (m f0).is_free = true := hF f0 (List.mem_cons_self _ _)
      have hnowrap : (m cur).size + (HEADER_SIZE + (m f0).size) < U32 := by
        have := SEGMENT_SIZE_lt_U32
        omega
      rw [coalesceMerge]
      rw [if_pos (by omega), if_pos (by rw [← hf0]; exact ⟨hfree, hf0free⟩)]
      rw [← hf0]
      set m1 := Mem.write m cur
        { m cur with size := add32 (m cur).size (HEADER_SIZE + (m f0).size) } with hm1
      have hm1cur : m1 cur = { m cur with
          size := add32 (m cur).size (HEADER_SIZE + (m f0).size) } := Mem.write_at _ _ _
      have hm1size : (m1 cur).size = (m cur).size + (HEADER_SIZE + (m f0).size) := by
        rw [hm1cur]
        exact add32_eq hnowrap
      have hm1other : ∀ o, o ≠ cur → m1 o = m o := fun o ho => Mem.write_ne _ _ ho
      have hgtcur : ∀ y ∈ F2 ++ R, cur < y := by
        intro y hy
        have := (htail2.mem_bounds y hy).1
        omega
      have hch1 : ChainTo m1 cur SEGMENT_SIZE (cur :: (F2 ++ R)) := by
        refine ChainTo.cons ?_
        have heq2 : cur + HEADER_SIZE + (m1 cur).size = f0 + HEADER_SIZE + (m f0).size := by
          rw [hm1size]; omega
        rw [heq2]
        refine htail2.frame ?_
        intro y hy
        rw [hm1other y (by have := hgtcur y hy; omega)]
      have hfree1 : (m1 cur).is_free = true := by
        rw [hm1cur]
        simpa using hfree
      have hF1 : ∀ x ∈ F2, (m1 x).is_free = true := by
        intro x hx
        rw [hm1other x (by have := hgtcur x (by simp [hx]); omega)]
        exact hF x (List.mem_cons_of_mem _ hx)
      have hR1 : ∀ r0, R.head? = some r0 → (m1 r0).is_free = false := by
        intro r0 hr0
        have hr0mem : r0 ∈ R := by
          cases R with
          | nil => cases hr0
          | cons a b => injection hr0 with e; exact e ▸ List.mem_cons_self _ _
        rw [hm1other r0 (by have := hgtcur r0 (by simp [hr0mem]); omega)]
        exact hR r0 hr0
      obtain ⟨ho2, hsz2, hnx2, hfl2, hch2⟩ := ih hch1 hfree1 hF1 hR1 (by simpa using hlen)
      refine ⟨?_, ?_, ?_, ?_, hch2⟩
      · intro o ho
        rw [ho2 o ho, hm1other o ho]
      · rw [hsz2, hm1size, sumBytes_cons]
        have hcongr : sumBytes m1 F2 = sumBytes m F2 := by
          refine sumBytes_congr ?_
          intro o ho
          rw [hm1other o (by have := hgtcur o (by simp [ho]); omega)]
        rw [hcongr]
        omega
      · rw [hnx2, hm1cur]
      · rw [hfl2, hm1cur]

theorem coalesceMerge_not_free {m : Mem} {cur : Nat} (h : (m cur).is_free = false) :
    ∀ fuel, coalesceMerge m cur fuel = m := by
  intro fuel
  cases fuel with
  | zero => rfl
  | succ f =>
    rw [coalesceMerge]
    split
    · rw [if_neg (by rw [h]; simp)]
    · rfl

theorem dropWhile_head_not (p : Nat → Bool) :
    ∀ (l : List Nat) (r0 : Nat), (l.dropWhile p).head? = some r0 → p r0 = false := by
  intro l
  induction l with
  | nil => intro r0 h; cases h
  | cons a l ih =>
    intro r0 h
    rw [List.dropWhile_cons] at h
    by_cases hpa : p a = true
    · rw [if_pos hpa] at h
      exact ih r0 h
    · rw [if_neg hpa] at h
      injection h with e
      subst e
      simpa using hpa

theorem coalesceLoop_zero (m : Mem) (flAcc : Option Nat) (fbAcc cur : Nat) :
    coalesceLoop m flAcc fbAcc 0 cur = (m, flAcc, fbAcc) := rfl

theorem coalesceLoop_succ (m : Mem) (flAcc : Option Nat) (fbAcc f cur : Nat) :
    coalesceLoop m flAcc fbAcc (f + 1) cur =
      if cur + HEADER_SIZE ≤ SEGMENT_SIZE then
        if (m cur).size = 0 ∨ SEGMENT_SIZE < cur + HEADER_SIZE + (m cur).size then
          (m, flAcc, fbAcc)
        else
          if ((coalesceMerge m cur FUEL) cur).is_free = true then
            coalesceLoop
              (Mem.write (coalesceMerge m cur FUEL) cur
                { (coalesceMerge m cur FUEL) cur with next := flAcc }) (some cur)
              (add32 fbAcc (add32 ((coalesceMerge m cur FUEL) cur).size HEADER_SIZE)) f
              (cur + HEADER_SIZE + ((coalesceMerge m cur FUEL) cur).size)
          else
            coalesceLoop (coalesceMerge m cur FUEL) flAcc fbAcc f
              (cur + HEADER_SIZE + ((coalesceMerge m cur FUEL) cur).size)
      else (m, flAcc, fbAcc) := rfl

/-- The outer coalescing walk: starting from a correctly tiled chain and
consistent accumulators over an already-processed region below `cur`, it
produces a still-tiled chain, publishes a free list of free chain blocks with
the matching byte count, never touches the region below `cur` nor any flags
word, and — when no block has a zero size — leaves no two adjacent free
blocks. -/
theorem coalesceLoop_spec :
    ∀ {fuel : Nat} {L : List Nat} {m : Mem} {cur : Nat} {flAcc : Option Nat} {fbAcc : Nat}
      {P : List Nat},
    ChainTo m cur SEGMENT_SIZE L →
    L.length < fuel →
    FollowTo m flAcc none P →
    P.Nodup →
    (∀ p ∈ P, p < cur) →
    (∀ p ∈ P, (m p).is_free = true) →
    fbAcc = sumBytes m P →
    fbAcc + sumBytes m L ≤ SEGMENT_SIZE →
    ∃ L2 P2,
      ChainTo (coalesceLoop m flAcc fbAcc fuel cur).1 cur SEGMENT_SIZE L2 ∧
      (∀ o, o < cur → (coalesceLoop m flAcc fbAcc fuel cur).1 o = m o) ∧
      (∀ o, ((coalesceLoop m flAcc fbAcc fuel cur).1 o).flags = (m o).flags) ∧
      FollowTo (coalesceLoop m flAcc fbAcc fuel cur).1
        (coalesceLoop m flAcc fbAcc fuel cur).2.1 none P2 ∧
      P2.Nodup ∧
      (∀ p ∈ P2, ((coalesceLoop m flAcc fbAcc fuel cur).1 p).is_free = true) ∧
      (coalesceLoop m flAcc fbAcc fuel cur).2.2 =
        sumBytes (coalesceLoop m flAcc fbAcc fuel cur).1 P2 ∧
      (∀ p ∈ P2, p ∈ P ∨ p ∈ L2) ∧
      ((∀ x ∈ L, (m x).size ≠ 0) →
        List.Chain' (fun a b => ¬(((coalesceLoop m flAcc fbAcc fuel cur).1 a).is_free = true ∧
          ((coalesceLoop m flAcc fbAcc fuel cur).1 b).is_free = true)) L2) ∧
      ((∀ x ∈ L, (m x).size ≠ 0) →
        ∀ x ∈ L2, ((coalesceLoop m flAcc fbAcc fuel cur).1 x).size ≠ 0) := by
  intro fuel
  induction fuel with
  | zero =>
    intro L m cur flAcc fbAcc P _ hlen
    exact absurd hlen (Nat.not_lt_zero _)
  | succ f ih =>
    intro L m cur flAcc fbAcc P hch hlen hfol hPnd hPlt hPfree hfb hbound
    have hhp := HEADER_SIZE_pos
    cases L with
    | nil =>
      have hcur : cur = SEGMENT_SIZE := hch.nil_inv
      have hrun : coalesceLoop m flAcc fbAcc (f + 1) cur = (m, flAcc, fbAcc) := by
        rw [coalesceLoop_succ, if_neg (by omega)]
      rw [hrun]
      exact ⟨[], P, by rw [hcur]; exact ChainTo.nil _, fun o _ => rfl, fun o => rfl, hfol, hPnd,
        hPfree, hfb, fun p hp => Or.inl hp, fun _ => List.chain'_nil,
        fun _ x hx => absurd hx (List.not_mem_nil _)⟩
    | cons cur0 L1 =>
      obtain ⟨hcur0, htail⟩ := hch.cons_elim
      subst hcur0
      have hcurb := (hch.mem_bounds cur0 (List.mem_cons_self _ _)).2
      by_cases hz : (m cur0).size = 0
      · -- corruption guard: the walk is truncated, accumulators published as-is
        have hrun : coalesceLoop m flAcc fbAcc (f + 1) cur0 = (m, flAcc, fbAcc) := by
          rw [coalesceLoop_succ, if_pos (by omega), if_pos (Or.inl hz)]
        rw [hrun]
        refine ⟨cur0 :: L1, P, hch, fun o _ => rfl, fun o => rfl, hfol, hPnd, hPfree, hfb,
          fun p hp => Or.inl hp, ?_, ?_⟩
        · intro hpos
          exact absurd hz (hpos cur0 (List.mem_cons_self _ _))
        · intro hpos
          exact absurd hz (hpos cur0 (List.mem_cons_self _ _))
      by_cases hfree : (m cur0).is_free = true
      · -- free block: merge the maximal free run, push, recurse
        have hsplitL : L1.takeWhile (fun x => (m x).is_free) ++
            L1.dropWhile (fun x => (m x).is_free) = L1 :=
          List.takeWhile_append_dropWhile (fun x => (m x).is_free) L1
        have hch2 : ChainTo m cur0 SEGMENT_SIZE (cur0 :: (L1.takeWhile (fun x => (m x).is_free) ++
            L1.dropWhile (fun x => (m x).is_free))) := by rw [hsplitL]; exact hch
        have hFfree : ∀ x ∈ L1.takeWhile (fun x => (m x).is_free), (m x).is_free = true := by
          intro x hx
          exact List.mem_takeWhile_imp (p := fun y => (m y).is_free) hx
        have hRnotfree : ∀ r0, (L1.dropWhile (fun x => (m x).is_free)).head? = some r0 →
            (m r0).is_free = false := by
          intro r0 h
          exact dropWhile_head_not (fun y => (m y).is_free) L1 r0 h
        have hFlen : (L1.takeWhile (fun x => (m x).is_free)).length ≤ FUEL := by
          have h1 : (L1.takeWhile (fun x => (m x).is_free)).length ≤ L1.length :=
            (List.takeWhile_sublist _).length_le
          have h2 := hch.length_le
          simp only [List.length_cons] at h2
          norm_num [HEADER_SIZE, SEGMENT_SIZE, FUEL] at h2 ⊢
          omega
        obtain ⟨hm1other, hm1size, hm1next, hm1flags, hchm1⟩ :=
          coalesceMerge_spec hch2 hfree hFfree hRnotfree hFlen
        have hm1free : ((coalesceMerge m cur0 FUEL) cur0).is_free = true := by
          rw [header.is_free_congr hm1flags]
          exact hfree
        have hrun : coalesceLoop m flAcc fbAcc (f + 1) cur0 =
            coalesceLoop
              (Mem.write (coalesceMerge m cur0 FUEL) cur0
                { (coalesceMerge m cur0 FUEL) cur0 with next := flAcc }) (some cur0)
              (add32 fbAcc (add32 ((coalesceMerge m cur0 FUEL) cur0).size HEADER_SIZE)) f
              (cur0 + HEADER_SIZE + ((coalesceMerge m cur0 FUEL) cur0).size) := by
          rw [coalesceLoop_succ, if_pos (by omega), if_neg (by push_neg; exact ⟨hz, by omega⟩),
            if_pos hm1free]
        rw [hrun]
        set M1 := coalesceMerge m cur0 FUEL with hM1def
        set M2 := Mem.write M1 cur0 { M1 cur0 with next := flAcc } with hM2def
        set CUR2 := cur0 + HEADER_SIZE + (M1 cur0).size with hCUR2def
        set FB2 := add32 fbAcc (add32 (M1 cur0).size HEADER_SIZE) with hFB2def
        have hM2cur : M2 cur0 = { M1 cur0 with next := flAcc } := Mem.write_at _ _ _
        have hM2other : ∀ o, o ≠ cur0 → M2 o = m o := by
          intro o ho
          rw [hM2def, Mem.write_ne _ _ ho, hm1other o ho]
        have hchm1' : ChainTo M1 CUR2 SEGMENT_SIZE (L1.dropWhile (fun x => (m x).is_free)) :=
          hchm1.cons_elim.2
        have hRgt : ∀ y ∈ L1.dropWhile (fun x => (m x).is_free), CUR2 ≤ y :=
          fun y hy => (hchm1'.mem_bounds y hy).1
        have hcur2gt : cur0 < CUR2 := by rw [hCUR2def]; omega
        have hchM2 : ChainTo M2 CUR2 SEGMENT_SIZE (L1.dropWhile (fun x => (m x).is_free)) := by
          refine hchm1'.frame ?_
          intro y hy
          have := hRgt y hy
          rw [hM2def, Mem.write_ne _ _ (by omega)]
        have hsumL : sumBytes m (cur0 :: L1) = ((m cur0).size + HEADER_SIZE) +
            (sumBytes m (L1.takeWhile (fun x => (m x).is_free)) +
             sumBytes m (L1.dropWhile (fun x => (m x).is_free))) := by
          rw [sumBytes_cons]
          rw [show sumBytes m L1 = sumBytes m (L1.takeWhile (fun x => (m x).is_free)) +
              sumBytes m (L1.dropWhile (fun x => (m x).is_free)) by
            rw [← sumBytes_append, hsplitL]]
        have hU := SEGMENT_SIZE_lt_U32
        have hszb : (M1 cur0).size + HEADER_SIZE ≤ sumBytes m (cur0 :: L1) := by
          rw [hm1size, hsumL]
          omega
        have hinner : add32 ((M1 cur0).size) HEADER_SIZE = (M1 cur0).size + HEADER_SIZE :=
          add32_eq (by omega)
        have hFB2eq : FB2 = fbAcc + ((M1 cur0).size + HEADER_SIZE) := by
          rw [hFB2def, hinner, add32_eq (by omega)]
        have hfol2 : FollowTo M2 (some cur0) none (cur0 :: P) := by
          refine FollowTo.cons ?_
          have : (M2 cur0).next = flAcc := by rw [hM2cur]
          rw [this]
          refine hfol.frame_next ?_
          intro x hx
          have := hPlt x hx
          rw [hM2other x (by omega)]
        have hnd2 : (cur0 :: P).Nodup := by
          refine List.nodup_cons.mpr ⟨?_, hPnd⟩
          intro hc
          have := hPlt cur0 hc
          omega
        have hlt2 : ∀ p ∈ cur0 :: P, p < CUR2 := by
          intro p hp
          rcases List.mem_cons.mp hp with rfl | hp
          · exact hcur2gt
          · have := hPlt p hp; omega
        have hfree2 : ∀ p ∈ cur0 :: P, (M2 p).is_free = true := by
          intro p hp
          rcases List.mem_cons.mp hp with rfl | hp
          · have hfl : (M2 p).flags = (m p).flags := by rw [hM2cur]; exact hm1flags
            rw [header.is_free_congr hfl]
            exact hfree
          · rw [hM2other p (by have := hPlt p hp; omega)]
            exact hPfree p hp
        have hfb2 : FB2 = sumBytes M2 (cur0 :: P) := by
          rw [sumBytes_cons, hFB2eq]
          have h1 : (M2 cur0).size = (M1 cur0).size := by rw [hM2cur]
          have h2 : sumBytes M2 P = sumBytes m P := by
            refine sumBytes_congr ?_
            intro o ho
            rw [hM2other o (by have := hPlt o ho; omega)]
          rw [h1, h2, hfb]
          omega
        have hsumR2 : sumBytes M2 (L1.dropWhile (fun x => (m x).is_free)) =
            sumBytes m (L1.dropWhile (fun x => (m x).is_free)) := by
          refine sumBytes_congr ?_
          intro o ho
          have := hRgt o ho
          rw [hM2other o (by omega)]
        have hbound2 : FB2 + sumBytes M2 (L1.dropWhile (fun x => (m x).is_free)) ≤
            SEGMENT_SIZE := by
          rw [hsumR2, hFB2eq, hm1size]
          rw [hsumL] at hbound
          omega
        have hlen2 : (L1.dropWhile (fun x => (m x).is_free)).length < f := by
          have h1 : (L1.dropWhile (fun x => (m x).is_free)).length ≤ L1.length :=
            (List.dropWhile_sublist _).length_le
          simp only [List.length_cons] at hlen
          omega
        obtain ⟨L2, P2, ihch, ihlow, ihflags, ihfol, ihnd, ihfree2, ihfb, ihmem, ihadj,
            ihpos⟩ :=
          ih hchM2 hlen2 hfol2 hnd2 hlt2 hfree2 hfb2 hbound2
        refine ⟨cur0 :: L2, P2, ?_, ?_, ?_, ihfol, ihnd, ihfree2, ihfb, ?_, ?_, ?_⟩
        · refine ChainTo.cons ?_
          have hc0 : (coalesceLoop M2 (some cur0) FB2 f CUR2).1 cur0 = M2 cur0 :=
            ihlow cur0 hcur2gt
          rw [hc0, hM2cur]
          simpa using ihch
        · intro o ho
          rw [ihlow o (by omega), hM2other o (by omega)]
        · intro o
          rw [ihflags o]
          by_cases ho : o = cur0
          · subst ho
            rw [hM2cur]
            exact hm1flags
          · rw [hM2other o ho]
        · intro p hp
          rcases ihmem p hp with h | h
          · rcases List.mem_cons.mp h with rfl | h2
            · exact Or.inr (List.mem_cons_self _ _)
            · exact Or.inl h2
          · exact Or.inr (List.mem_cons_of_mem _ h)
        · intro hpos
          have hposR : ∀ x ∈ L1.dropWhile (fun x => (m x).is_free), (M2 x).size ≠ 0 := by
            intro x hx
            have := hRgt x hx
            rw [hM2other x (by omega)]
            refine hpos x ?_
            refine List.mem_cons_of_mem _ ?_
            rw [← hsplitL]
            exact List.mem_append.mpr (Or.inr hx)
          have hadj2 := ihadj hposR
          rw [List.chain'_cons']
          refine ⟨?_, hadj2⟩
          intro b hb
          cases L2 with
          | nil => cases hb
          | cons b0 L2t =>
            have he : b0 = b := by
              rw [List.head?_cons, Option.mem_def] at hb
              injection hb
            have hbCUR2 : b0 = CUR2 := ihch.head_eq
            rw [← he, hbCUR2]
            cases hRe : L1.dropWhile (fun x => (m x).is_free) with
            | nil =>
              rw [hRe] at hchm1'
              have : CUR2 = SEGMENT_SIZE := hchm1'.nil_inv
              have hbnd := (ihch.mem_bounds b0 (List.mem_cons_self _ _)).2
              rw [hbCUR2] at hbnd
              omega
            | cons r0 R2 =>
              rw [hRe] at hchm1'
              have hr0 : r0 = CUR2 := hchm1'.head_eq
              have hnf : (m r0).is_free = false := by
                refine hRnotfree r0 ?_
                rw [hRe]
                rfl
              intro hcontra
              have hflb : ((coalesceLoop M2 (some cur0) FB2 f CUR2).1 CUR2).flags =
                  (m CUR2).flags := by
                rw [ihflags CUR2]
                by_cases hc : CUR2 = cur0
                · omega
                · rw [hM2other CUR2 hc]
              have := header.is_free_congr hflb
              rw [this] at hcontra
              rw [← hr0] at hcontra
              rw [hnf] at hcontra
              exact absurd hcontra.2 (by simp)
        · intro hpos
          have hposR : ∀ x ∈ L1.dropWhile (fun x => (m x).is_free), (M2 x).size ≠ 0 := by
            intro x hx
            have := hRgt x hx
            rw [hM2other x (by omega)]
            refine hpos x ?_
            refine List.mem_cons_of_mem _ ?_
            rw [← hsplitL]
            exact List.mem_append.mpr (Or.inr hx)
          intro x hx
          rcases List.mem_cons.mp hx with hxe | hx2
          · rw [hxe]
            have hc0 : (coalesceLoop M2 (some cur0) FB2 f CUR2).1 cur0 = M2 cur0 :=
              ihlow cur0 hcur2gt
            rw [hc0, hM2cur]
            show (M1 cur0).size ≠ 0
            rw [hm1size]
            omega
          · exact ihpos hposR x hx2
      · -- allocated block: skip it
        have hm1 : coalesceMerge m cur0 FUEL = m :=
          coalesceMerge_not_free (by simpa using hfree) FUEL
        have hrun : coalesceLoop m flAcc fbAcc (f + 1) cur0 =
            coalesceLoop m flAcc fbAcc f (cur0 + HEADER_SIZE + (m cur0).size) := by
          rw [coalesceLoop_succ, if_pos (by omega), if_neg (by push_neg; exact ⟨hz, by omega⟩),
            hm1, if_neg (by simpa using hfree)]
        have hsum_cons : sumBytes m (cur0 :: L1) = ((m cur0).size + HEADER_SIZE) + sumBytes m L1 :=
          sumBytes_cons _ _ _
        obtain ⟨L2, P2, ihch, ihlow, ihflags, ihfol, ihnd, ihfree2, ihfb, ihmem, ihadj,
            ihpos⟩ :=
          ih htail (by simpa using hlen) hfol hPnd
            (fun p hp => by have := hPlt p hp; omega)
            hPfree hfb (by omega)
        rw [hrun]
        refine ⟨cur0 :: L2, P2, ?_, ?_, ihflags, ihfol, ihnd, ihfree2, ihfb,
          ?_, ?_, ?_⟩
        · refine ChainTo.cons ?_
          have hcur0eq : (coalesceLoop m flAcc fbAcc f
              (cur0 + HEADER_SIZE + (m cur0).size)).1 cur0 = m cur0 :=
            ihlow cur0 (by omega)
          rw [hcur0eq]
          exact ihch
        · intro o ho
          exact ihlow o (by omega)
        · intro p hp
          rcases ihmem p hp with h | h
          · exact Or.inl h
          · exact Or.inr (List.mem_cons_of_mem _ h)
        · intro hpos
          have hadj2 := ihadj (fun x hx => hpos x (List.mem_cons_of_mem _ hx))
          rw [List.chain'_cons']
          refine ⟨?_, hadj2⟩
          intro b hb
          have hforig : (coalesceLoop m flAcc fbAcc f
              (cur0 + HEADER_SIZE + (m cur0).size)).1 cur0 = m cur0 :=
            ihlow cur0 (by omega)
          intro hcontra
          rw [hforig] at hcontra
          rw [hcontra.1] at hfree
          exact hfree rfl
        · intro hpos x hx
          rcases List.mem_cons.mp hx with hxe | hx2
          · rw [hxe, ihlow cur0 (by omega)]
            exact hz
          · exact ihpos (fun y hy => hpos y (List.mem_cons_of_mem _ hy)) x hx2

/-! ### The directory invariant across allocation and collection -/

/-- A successful `allocate_from_segment` preserves the full directory
invariant: the header chain still tiles the segment, the rebuilt free list is
still an acyclic chain of free blocks, and `free_bytes` still equals the sum
of `size + 16` over it. -/
theorem afs_preserves_SegWF {m : Mem} {info : segment_info} {bytes cur : Nat} {m' : Mem}
    {info' : segment_info} (hWF : SegWF m info)
    (heq : allocate_from_segment m info bytes = some (cur, m', info')) : SegWF m' info' := by
  obtain ⟨blocks, fl, hchain, hrep, hnd, hmemf, hsum⟩ := hWF
  obtain ⟨blocks2, fl2, hchain2, hrep2, hnd2, hmemf2, hsum2, hfb2, -, -⟩ :=
    afs_preserves_parts hchain hrep hnd hmemf heq
  have hflb : sumBytes m fl ≤ SEGMENT_SIZE := by
    have h1 : sumBytes m fl ≤ sumBytes m blocks :=
      sumBytes_le_of_subset hnd hchain.nodup (fun x hx => (hmemf x hx).1)
    have h2 := hchain.sum
    omega
  have hle : (m' cur).size + HEADER_SIZE ≤ info.free_bytes := by rw [hsum]; omega
  have hlt : info.free_bytes < U32 := by
    have := SEGMENT_SIZE_lt_U32
    rw [hsum]
    omega
  refine ⟨blocks2, fl2, hchain2, hrep2, hnd2, hmemf2, ?_⟩
  rw [hfb2, sub32_eq hle hlt, hsum]
  omega

/-- `coalesce_segment`, run on any tiled header chain: the published entry
satisfies the full directory invariant, no flag byte is touched, and — as
long as no block of the old chain had size zero — the new chain has no
zero-size block and no two physically adjacent free blocks. -/
theorem coalesce_segment_spec {m : Mem} {blocks : List Nat}
    (hch : ChainTo m 0 SEGMENT_SIZE blocks) :
    ∃ blocks2 flist2,
      ChainTo (coalesce_segment m).1 0 SEGMENT_SIZE blocks2 ∧
      FreeListRep (coalesce_segment m).1 (coalesce_segment m).2.free_list_head flist2 ∧
      flist2.Nodup ∧
      (∀ o ∈ flist2, o ∈ blocks2 ∧ ((coalesce_segment m).1 o).is_free = true) ∧
      (coalesce_segment m).2.free_bytes = sumBytes (coalesce_segment m).1 flist2 ∧
      (∀ o, ((coalesce_segment m).1 o).flags = (m o).flags) ∧
      ((∀ x ∈ blocks, (m x).size ≠ 0) →
        List.Chain' (fun a b => ¬(((coalesce_segment m).1 a).is_free = true ∧
          ((coalesce_segment m).1 b).is_free = true)) blocks2 ∧
        ∀ x ∈ blocks2, ((coalesce_segment m).1 x).size ≠ 0) := by
  have hlen : blocks.length < FUEL := by
    have := hch.length_le
    simp only [Nat.mul_add, Nat.mul_one] at this
    norm_num [HEADER_SIZE, SEGMENT_SIZE, FUEL] at this ⊢
    omega
  have hbound : 0 + sumBytes m blocks ≤ SEGMENT_SIZE := le_of_eq hch.sum
  obtain ⟨L2, P2, hch2, -, hflags, hfol, hnd, hfree, hfb, hmem, hadj, hpos⟩ :=
    coalesceLoop_spec hch hlen (FollowTo.nil none) List.nodup_nil
      (fun p hp => absurd hp (List.not_mem_nil _))
      (fun p hp => absurd hp (List.not_mem_nil _)) (sumBytes_nil m).symm hbound
  have e1 : (coalesce_segment m).1 = (coalesceLoop m none 0 FUEL 0).1 := rfl
  have e2 : (coalesce_segment m).2.free_list_head = (coalesceLoop m none 0 FUEL 0).2.1 := rfl
  have e3 : (coalesce_segment m).2.free_bytes = (coalesceLoop m none 0 FUEL 0).2.2 := rfl
  rw [e1, e2, e3]
  refine ⟨L2, P2, hch2, hfol, hnd, ?_, hfb, hflags, fun h => ⟨hadj h, hpos h⟩⟩
  intro o ho
  refine ⟨?_, hfree o ho⟩
  rcases hmem o ho with h | h
  · exact absurd h (List.not_mem_nil _)
  · exact h

/-- One segment's share of a collection, from any tiled chain: the published
directory entry satisfies the full invariant, and if the old chain had no
zero-size block, the new chain has none either and no two physically
adjacent blocks of it are both free. -/
theorem collectSeg_parts {m : Mem} {blocks : List Nat} (roots : List Nat)
    (hch : ChainTo m 0 SEGMENT_SIZE blocks) :
    ∃ blocks2 flist2,
      ChainTo (collectSeg m roots).1 0 SEGMENT_SIZE blocks2 ∧
      FreeListRep (collectSeg m roots).1 (collectSeg m roots).2.free_list_head flist2 ∧
      flist2.Nodup ∧
      (∀ o ∈ flist2, o ∈ blocks2 ∧ ((collectSeg m roots).1 o).is_free = true) ∧
      (collectSeg m roots).2.free_bytes = sumBytes (collectSeg m roots).1 flist2 ∧
      ((∀ x ∈ blocks, (m x).size ≠ 0) →
        List.Chain' (fun a b => ¬(((collectSeg m roots).1 a).is_free = true ∧
          ((collectSeg m roots).1 b).is_free = true)) blocks2 ∧
        ∀ x ∈ blocks2, ((collectSeg m roots).1 x).size ≠ 0) := by
  have hchM : ChainTo (markSeg m roots) 0 SEGMENT_SIZE blocks :=
    hch.frame (fun x _ => (markSeg_fields roots m x).1)
  have hlen : blocks.length < FUEL := by
    have := hch.length_le
    simp only [Nat.mul_add, Nat.mul_one] at this
    norm_num [HEADER_SIZE, SEGMENT_SIZE, FUEL] at this ⊢
    omega
  obtain ⟨hs1, -⟩ := sweep_segment_desc hchM hlen
  have hsz : ∀ x ∈ blocks,
      ((sweep_segment (markSeg m roots) FUEL 0) x).size = (m x).size := by
    intro x hx
    rw [hs1 x hx, sweepStep_size, (markSeg_fields roots m x).1]
  have hchS : ChainTo (sweep_segment (markSeg m roots) FUEL 0) 0 SEGMENT_SIZE blocks :=
    hch.frame hsz
  obtain ⟨blocks2, flist2, h1, h2, h3, h4, h5, -, h7⟩ := coalesce_segment_spec hchS
  refine ⟨blocks2, flist2, h1, h2, h3, h4, h5, ?_⟩
  intro hpos
  exact h7 (fun x hx => by rw [hsz x hx]; exact hpos x hx)

/-- The directory invariant minus the byte-count equation: it holds at every
quiescent state, including the freshly constructed one (where the count is
off by one header). -/
def SegPartsInv (m : Mem) (info : segment_info) : Prop :=
  ∃ blocks flist,
    ChainTo m 0 SEGMENT_SIZE blocks ∧
    FreeListRep m info.free_list_head flist ∧
    flist.Nodup ∧
    (∀ o ∈ flist, o ∈ blocks ∧ (m o).is_free = true)

theorem initSegment_chain (junk : Mem) :
    ChainTo (initSegment junk) 0 SEGMENT_SIZE [0] := by
  refine ChainTo.cons ?_
  have h0 : initSegment junk 0 = initialHeader := Mem.write_at _ _ _
  have he : 0 + HEADER_SIZE + (initSegment junk 0).size = SEGMENT_SIZE := by
    rw [h0]
    norm_num [initialHeader, HEADER_SIZE, SEGMENT_SIZE]
  rw [he]
  exact ChainTo.nil _

theorem initSegment_parts (junk : Mem) :
    SegPartsInv (initSegment junk) ⟨some 0, SEGMENT_SIZE - HEADER_SIZE⟩ := by
  refine ⟨[0], [0], initSegment_chain junk, ?_, List.nodup_singleton _, ?_⟩
  · refine FollowTo.cons ?_
    have h0 : initSegment junk 0 = initialHeader := Mem.write_at _ _ _
    rw [h0]
    exact FollowTo.nil none
  · intro o ho
    have ho0 : o = 0 := List.mem_singleton.mp ho
    subst ho0
    have h0 : initSegment junk 0 = initialHeader := Mem.write_at _ _ _
    rw [h0]
    exact ⟨List.mem_singleton_self _, rfl⟩

/-- Every quiescent state of a segment satisfies the chain-and-free-list
part of the directory invariant. -/
theorem segReach_parts {m : Mem} {info : segment_info} (h : segReach m info) :
    SegPartsInv m info := by
  induction h with
  | ctor junk => exact initSegment_parts junk
  | alloc hreach heq ih =>
    obtain ⟨blocks, flist, h1, h2, h3, h4⟩ := ih
    obtain ⟨blocks2, flist2, g1, g2, g3, g4, -, -, -, -⟩ :=
      afs_preserves_parts h1 h2 h3 h4 heq
    exact ⟨blocks2, flist2, g1, g2, g3, g4⟩
  | gcStep roots hreach ih =>
    obtain ⟨blocks, flist, h1, h2, h3, h4⟩ := ih
    obtain ⟨blocks2, flist2, g1, g2, g3, g4, -, -⟩ := collectSeg_parts roots h1
    exact ⟨blocks2, flist2, g1, g2, g3, g4⟩

/-- The strengthened invariant for runs whose every allocation request is
nonzero: additionally, no block of the chain has size zero. -/
def SegPosInv (m : Mem) (info : segment_info) : Prop :=
  ∃ blocks flist,
    ChainTo m 0 SEGMENT_SIZE blocks ∧
    FreeListRep m info.free_list_head flist ∧
    flist.Nodup ∧
    (∀ o ∈ flist, o ∈ blocks ∧ (m o).is_free = true) ∧
    (∀ x ∈ blocks, (m x).size ≠ 0)

theorem segReachPos_parts {m : Mem} {info : segment_info} (h : segReachPos m info) :
    SegPosInv m info := by
  induction h with
  | ctor junk =>
    obtain ⟨blocks, flist, h1, h2, h3, h4⟩ := initSegment_parts junk
    refine ⟨blocks, flist, h1, h2, h3, h4, ?_⟩
    have hbu : blocks = [0] := by
      cases h1 with
      | cons htail =>
        cases htail with
        | nil => rfl
        | cons h2' =>
          exfalso
          have hle := h2'.le
          have h0 : initSegment junk 0 = initialHeader := Mem.write_at _ _ _
          rw [h0] at hle
          norm_num [initialHeader, HEADER_SIZE, SEGMENT_SIZE] at hle
          omega
    intro x hx
    rw [hbu] at hx
    have hx0 : x = 0 := List.mem_singleton.mp hx
    subst hx0
    have h0 : initSegment junk 0 = initialHeader := Mem.write_at _ _ _
    rw [h0]
    norm_num [initialHeader, HEADER_SIZE, SEGMENT_SIZE]
  | alloc hreach hb heq ih =>
    obtain ⟨blocks, flist, h1, h2, h3, h4, h5⟩ := ih
    obtain ⟨blocks2, flist2, g1, g2, g3, g4, -, -, g7, -⟩ :=
      afs_preserves_parts h1 h2 h3 h4 heq
    exact ⟨blocks2, flist2, g1, g2, g3, g4, g7 h5 hb⟩
  | gcStep roots hreach ih =>
    obtain ⟨blocks, flist, h1, h2, h3, h4, h5⟩ := ih
    obtain ⟨blocks2, flist2, g1, g2, g3, g4, -, g6⟩ := collectSeg_parts roots h1
    exact ⟨blocks2, flist2, g1, g2, g3, g4, (g6 h5).2⟩

/-- The quiescent states that have seen at least one collection: a `gcStep`
from any reachable state, followed by any successful allocations and further
collections. -/
inductive segReachWF : Mem → segment_info → Prop where
  | gcStep {m info} (roots : List Nat) : segReach m info →
      segReachWF (collectSeg m roots).1 (collectSeg m roots).2
  | alloc {m info bytes ptr m2 info2} : segReachWF m info →
      allocate_from_segment m info bytes = some (ptr, m2, info2) → segReachWF m2 info2

/-- After the first collection the full directory invariant — byte count
included — holds and is preserved by every later allocation and collection. -/
theorem segReachWF_SegWF {m : Mem} {info : segment_info} (h : segReachWF m info) :
    SegWF m info := by
  induction h with
  | gcStep roots hreach =>
    obtain ⟨blocks, flist, h1, h2, h3, h4⟩ := segReach_parts hreach
    obtain ⟨blocks2, flist2, g1, g2, g3, g4, g5, -⟩ := collectSeg_parts roots h1
    exact ⟨blocks2, flist2, g1, g2, g3, g4, g5⟩
  | alloc hreach heq ih => exact afs_preserves_SegWF ih heq


/-! ### Mark-phase lemmas at the heap level -/

theorem chain_length_lt_FUEL {m : Mem} {L : List Nat} (h : ChainTo m 0 SEGMENT_SIZE L) :
    L.length < FUEL := by
  have h2 := h.length_le
  norm_num [HEADER_SIZE, SEGMENT_SIZE, FUEL] at h2 ⊢
  omega

theorem heapMark_get_ne : ∀ (h : Heap) (si off sj : Nat), sj ≠ si →
    (heapMark h si off).get? sj = h.get? sj := by
  intro h
  induction h with
  | nil => intro si off sj _; cases si <;> rfl
  | cons m rest ih =>
    intro si off sj hne
    cases si with
    | zero =>
      cases sj with
      | zero => exact absurd rfl hne
      | succ j => rfl
    | succ i =>
      cases sj with
      | zero => rfl
      | succ j =>
        show (m :: heapMark rest i off).get? (j + 1) = (m :: rest).get? (j + 1)
        simp only [List.get?_cons_succ]
        exact ih i off j (fun e => hne (by rw [e]))

theorem heapMark_get_eq : ∀ (h : Heap) (si off : Nat) (m : Mem), h.get? si = some m →
    (heapMark h si off).get? si = some (Mem.write m off ((m off).set_marked true)) := by
  intro h
  induction h with
  | nil => intro si off m hg; cases hg
  | cons m0 rest ih =>
    intro si off m hg
    cases si with
    | zero =>
      simp only [List.get?_cons_zero] at hg
      injection hg with e
      subst e
      rfl
    | succ i =>
      show (m0 :: heapMark rest i off).get? (i + 1) = _
      simp only [List.get?_cons_succ] at hg ⊢
      exact ih i off m hg

/-- The mark phase as a flat walk over root-referenced addresses. -/
def markAddrs (h : Heap) (as : List Addr) : Heap :=
  as.foldl (fun h a => heapMark h a.1 a.2) h

theorem markAddrs_cons (h : Heap) (a : Addr) (as : List Addr) :
    markAddrs h (a :: as) = markAddrs (heapMark h a.1 a.2) as := rfl

theorem gc_mark_eq_markAddrs (roots : List root_var) : ∀ (h : Heap),
    gc_mark h roots = markAddrs h (roots.flatMap root_var.refs) := by
  induction roots with
  | nil => intro h; rfl
  | cons r rs ih =>
    intro h
    show gc_mark (markAddrs h (root_var.refs r)) rs = _
    rw [ih, List.flatMap_cons]
    simp only [markAddrs]
    rw [List.foldl_append]

theorem markAddrs_get : ∀ (as : List Addr) (h : Heap) (si : Nat) (m : Mem),
    h.get? si = some m →
    ∃ mm, (markAddrs h as).get? si = some mm ∧
      (∀ o, (mm o).size = (m o).size ∧ (mm o).next = (m o).next ∧
        (mm o).is_free = (m o).is_free) ∧
      (∀ o, (m o).is_marked = true → (mm o).is_marked = true) ∧
      (∀ o, (si, o) ∉ as → (mm o).is_marked = (m o).is_marked) ∧
      (∀ o, (si, o) ∈ as → (mm o).is_marked = true) := by
  intro as
  induction as with
  | nil =>
    intro h si m hg
    exact ⟨m, hg, fun o => ⟨rfl, rfl, rfl⟩, fun o hm => hm, fun o _ => rfl,
      fun o ho => absurd ho (List.not_mem_nil _)⟩
  | cons a as ih =>
    intro h si m hg
    rw [markAddrs_cons]
    by_cases hsi : a.1 = si
    · have hg2 : (heapMark h a.1 a.2).get? si =
          some (Mem.write m a.2 ((m a.2).set_marked true)) := by
        rw [hsi]
        exact heapMark_get_eq h si a.2 m hg
      obtain ⟨mm, h1, h2, h3, h4, h5⟩ := ih _ si _ hg2
      have hm1fields : ∀ o,
          (Mem.write m a.2 ((m a.2).set_marked true) o).size = (m o).size ∧
          (Mem.write m a.2 ((m a.2).set_marked true) o).next = (m o).next ∧
          (Mem.write m a.2 ((m a.2).set_marked true) o).is_free = (m o).is_free := by
        intro o
        by_cases ho : o = a.2
        · subst ho
          rw [Mem.write_at]
          simp
        · rw [Mem.write_ne _ _ ho]
          exact ⟨rfl, rfl, rfl⟩
      have hm1mono : ∀ o, (m o).is_marked = true →
          (Mem.write m a.2 ((m a.2).set_marked true) o).is_marked = true := by
        intro o hm
        by_cases ho : o = a.2
        · subst ho; rw [Mem.write_at]; simp
        · rw [Mem.write_ne _ _ ho]; exact hm
      refine ⟨mm, h1, ?_, ?_, ?_, ?_⟩
      · intro o
        obtain ⟨e1, e2, e3⟩ := h2 o
        obtain ⟨f1, f2, f3⟩ := hm1fields o
        exact ⟨e1.trans f1, e2.trans f2, e3.trans f3⟩
      · intro o hm
        exact h3 o (hm1mono o hm)
      · intro o ho
        have hoa : o ≠ a.2 := by
          intro he
          apply ho
          have : (si, o) = a := by
            rw [← hsi, he]
          rw [this]
          exact List.mem_cons_self _ _
        have honot : (si, o) ∉ as := fun hmem => ho (List.mem_cons_of_mem _ hmem)
        rw [h4 o honot, Mem.write_ne _ _ hoa]
      · intro o ho
        rcases List.mem_cons.mp ho with he | hmem
        · have hoa : o = a.2 := by
            have := congrArg Prod.snd he
            simpa using this
          refine h3 o ?_
          subst hoa
          rw [Mem.write_at]
          simp
        · exact h5 o hmem
    · have hg2 : (heapMark h a.1 a.2).get? si = some m := by
        rw [heapMark_get_ne h a.1 a.2 si (fun e => hsi e.symm)]
        exact hg
      obtain ⟨mm, h1, h2, h3, h4, h5⟩ := ih _ si _ hg2
      refine ⟨mm, h1, h2, h3, ?_, ?_⟩
      · intro o ho
        exact h4 o (fun hmem => ho (List.mem_cons_of_mem _ hmem))
      · intro o ho
        rcases List.mem_cons.mp ho with he | hmem
        · exfalso
          apply hsi
          have := congrArg Prod.fst he
          simpa using this.symm
        · exact h5 o hmem


/-- C4: after the collector's mark phase every block a non-null root slot
refers to is marked; after the sweep no block of a tiled segment is marked,
and every chain block that was neither free nor referred to by any root is
flagged free. -/
theorem mark_sweep_roots {h : Heap} {roots : List root_var} {si : Nat} {m : Mem}
    {L : List Nat} (hget : h.get? si = some m) (hch : ChainTo m 0 SEGMENT_SIZE L) :
    ∃ mm ms,
      (gc_mark h roots).get? si = some mm ∧
      (gc_collect h roots).get? si = some ms ∧
      (∀ r ∈ roots, ∀ a ∈ root_var.refs r, a.1 = si → (mm a.2).is_marked = true) ∧
      (∀ x ∈ L, (ms x).is_marked = false) ∧
      (∀ x ∈ L, (m x).is_free = false → (m x).is_marked = false →
        (∀ r ∈ roots, (si, x) ∉ root_var.refs r) → (ms x).is_free = true) := by
  obtain ⟨mm, h1, h2, h3, h4, h5⟩ :=
    markAddrs_get (roots.flatMap root_var.refs) h si m hget
  rw [← gc_mark_eq_markAddrs] at h1
  have hchmm : ChainTo mm 0 SEGMENT_SIZE L := hch.frame (fun x _ => (h2 x).1)
  obtain ⟨hs1, -⟩ := sweep_segment_desc hchmm (chain_length_lt_FUEL hchmm)
  refine ⟨mm, sweep_segment mm FUEL 0, h1, ?_, ?_, ?_, ?_⟩
  · show (gc_sweep (gc_mark h roots)).get? si = _
    rw [gc_sweep, List.get?_map, h1]
    rfl
  · intro r hr a ha hA
    apply h5
    rw [← hA, Prod.mk.eta]
    exact List.mem_flatMap.mpr ⟨r, hr, ha⟩
  · intro x hx
    rw [hs1 x hx]
    exact sweepStep_is_marked _
  · intro x hx hfree hmarked href
    rw [hs1 x hx]
    have hmmx : (mm x).is_marked = false := by
      rw [h4 x ?_]
      · exact hmarked
      · intro hmem
        obtain ⟨r, hr, hxr⟩ := List.mem_flatMap.mp hmem
        exact href r hr hxr
    rw [sweepStep_is_free, hmmx]
    simp


/-! ### Heap-manager allocation: what a non-null result points at -/

theorem findIter_range (infos : List segment_info) (bytes s c so : Nat) :
    ∀ (r o idx : Nat), 0 < c → findIter infos bytes s c so r o = some idx →
      s ≤ idx ∧ idx < s + c := by
  intro r
  induction r with
  | zero =>
    intro o idx _ h
    rw [findIter] at h
    cases h
  | succ rr ih =>
    intro o idx hc h
    rw [findIter] at h
    cases hg : infos.get? (s + (so + o + 1) % c) with
    | none =>
      simp only [hg] at h
      exact ih (o + 1) idx hc h
    | some si =>
      simp only [hg] at h
      by_cases hfb : si.free_bytes < bytes + HEADER_SIZE
      · rw [if_pos hfb] at h
        exact ih (o + 1) idx hc h
      · rw [if_neg hfb] at h
        injection h with e
        subst e
        refine ⟨Nat.le_add_right _ _, ?_⟩
        have := Nat.mod_lt (so + o + 1) hc
        omega

theorem find_suitable_large_range {hm : heap_manager} {bytes idx : Nat} {hm2 : heap_manager}
    (hbig : MEDIUM_OBJECT_THRESHOLD < bytes)
    (heq : hm.find_suitable_segment bytes = (some idx, hm2)) :
    SMALL_OBJECT_SEGMENTS + MEDIUM_OBJECT_SEGMENTS ≤ idx ∧ idx < TOTAL_SEGMENTS := by
  have h1 : ¬ bytes ≤ SMALL_OBJECT_THRESHOLD := by
    have h3 : SMALL_OBJECT_THRESHOLD ≤ MEDIUM_OBJECT_THRESHOLD := by
      norm_num [SMALL_OBJECT_THRESHOLD, MEDIUM_OBJECT_THRESHOLD]
    omega
  have h2 : ¬ bytes ≤ MEDIUM_OBJECT_THRESHOLD := by omega
  unfold heap_manager.find_suitable_segment at heq
  simp only [if_neg h1, if_neg h2] at heq
  split at heq
  · simp at heq
  · rename_i idx0 hfi
    rw [Prod.mk.injEq] at heq
    obtain ⟨e1, -⟩ := heq
    injection e1 with e1
    subst e1
    have hc : 0 < SMALL_OBJECT_SEGMENTS + MEDIUM_OBJECT_SEGMENTS + LARGE_OBJECT_SEGMENTS -
        (SMALL_OBJECT_SEGMENTS + MEDIUM_OBJECT_SEGMENTS) := by
      norm_num [SMALL_OBJECT_SEGMENTS, MEDIUM_OBJECT_SEGMENTS, LARGE_OBJECT_SEGMENTS]
    have hr := findIter_range _ _ _ _ _ _ _ _ hc hfi
    constructor
    · exact hr.1
    · have h4 : SMALL_OBJECT_SEGMENTS + MEDIUM_OBJECT_SEGMENTS +
          (SMALL_OBJECT_SEGMENTS + MEDIUM_OBJECT_SEGMENTS + LARGE_OBJECT_SEGMENTS -
            (SMALL_OBJECT_SEGMENTS + MEDIUM_OBJECT_SEGMENTS)) = TOTAL_SEGMENTS := by
        norm_num [SMALL_OBJECT_SEGMENTS, MEDIUM_OBJECT_SEGMENTS, LARGE_OBJECT_SEGMENTS,
          TOTAL_SEGMENTS]
      omega

theorem alloc_at_post {hm : heap_manager} {idx bytes : Nat} {a : Addr} {hm2 : heap_manager}
    (heq : hm.alloc_at idx bytes = some (a, hm2)) :
    a.1 = idx ∧ ∃ m, hm2.mems.get? idx = some m ∧ bytes ≤ (m a.2).size ∧
      (m a.2).is_free = false ∧ (m a.2).is_marked = false ∧ (m a.2).next = none := by
  unfold heap_manager.alloc_at at heq
  cases hg1 : hm.mems.get? idx with
  | none =>
    simp only [hg1] at heq
    cases heq
  | some m =>
    cases hg2 : hm.infos.get? idx with
    | none =>
      simp only [hg1, hg2] at heq
      cases heq
    | some info =>
      simp only [hg1, hg2] at heq
      cases hafs : allocate_from_segment m info bytes with
      | none =>
        simp only [hafs] at heq
        cases heq
      | some t =>
        obtain ⟨ptr, m3, info3⟩ := t
        simp only [hafs] at heq
        injection heq with e
        rw [Prod.mk.injEq] at e
        obtain ⟨e1, e2⟩ := e
        subst e2
        have hlt : idx < hm.mems.length := List.get?_eq_some.mp hg1 |>.fst
        refine ⟨?_, m3, ?_, ?_⟩
        · rw [← e1]
        · show (hm.mems.set idx m3).get? idx = some m3
          rw [List.get?_eq_getElem?, List.getElem?_set_self]
          exact hlt
        · obtain ⟨hsz, hf, hmk, hn⟩ := afs_post hafs
          have e3 : a.2 = ptr := by rw [← e1]
          rw [e3]
          exact ⟨hsz, hf, hmk, hn⟩

theorem fastPath_post {bytes : Nat} : ∀ {k : Nat} {hm : heap_manager} {a : Addr}
    {hm2 : heap_manager}, hm.fastPath bytes k = (some a, hm2) →
    (∃ m, hm2.mems.get? a.1 = some m ∧ bytes ≤ (m a.2).size ∧ (m a.2).is_free = false ∧
      (m a.2).is_marked = false ∧ (m a.2).next = none) ∧
    (MEDIUM_OBJECT_THRESHOLD < bytes →
      SMALL_OBJECT_SEGMENTS + MEDIUM_OBJECT_SEGMENTS ≤ a.1 ∧ a.1 < TOTAL_SEGMENTS) := by
  intro k
  induction k with
  | zero =>
    intro hm a hm2 heq
    rw [heap_manager.fastPath] at heq
    simp at heq
  | succ kk ih =>
    intro hm a hm2 heq
    rw [heap_manager.fastPath] at heq
    cases hfs : hm.find_suitable_segment bytes with
    | mk oidx hm1 =>
      cases oidx with
      | some idx =>
        simp only [hfs] at heq
        cases hal : hm1.alloc_at idx bytes with
        | none =>
          simp only [hal] at heq
          exact ih heq
        | some t =>
          obtain ⟨a0, hm20⟩ := t
          simp only [hal] at heq
          rw [Prod.mk.injEq] at heq
          obtain ⟨e1, e2⟩ := heq
          injection e1 with e1
          subst e1
          subst e2
          obtain ⟨h1, m, hm_, hsz, hf, hmk, hn⟩ := alloc_at_post hal
          refine ⟨⟨m, ?_, hsz, hf, hmk, hn⟩, ?_⟩
          · rw [h1]
            exact hm_
          · intro hbig
            rw [h1]
            exact find_suitable_large_range hbig hfs
      | none =>
        simp only [hfs] at heq
        exact ih heq

theorem allocate_some_post {hm : heap_manager} {n : Nat} {a : Addr} {hm2 : heap_manager}
    (heq : heap_manager.allocate hm n = (some a, hm2)) :
    (∃ m, hm2.mems.get? a.1 = some m ∧
      ((n + 15) % U32) &&& 0xFFFFFFF0 ≤ (m a.2).size ∧ (m a.2).is_free = false ∧
      (m a.2).is_marked = false ∧ (m a.2).next = none) ∧
    (MEDIUM_OBJECT_THRESHOLD < ((n + 15) % U32) &&& 0xFFFFFFF0 →
      SMALL_OBJECT_SEGMENTS + MEDIUM_OBJECT_SEGMENTS ≤ a.1 ∧ a.1 < TOTAL_SEGMENTS) := by
  unfold heap_manager.allocate at heq
  by_cases hz : n = 0
  · rw [if_pos hz] at heq
    simp at heq
  · rw [if_neg hz] at heq
    cases hfp : hm.fastPath (((n + 15) % U32) &&& 0xFFFFFFF0) FAST_ATTEMPTS with
    | mk oa hm1 =>
      cases oa with
      | some a0 =>
        simp only [hfp] at heq
        rw [Prod.mk.injEq] at heq
        obtain ⟨e1, e2⟩ := heq
        injection e1 with e1
        subst e1
        subst e2
        exact fastPath_post hfp
      | none =>
        simp only [hfp] at heq
        cases hfs : hm1.collect_garbage.find_suitable_segment
            (((n + 15) % U32) &&& 0xFFFFFFF0) with
        | mk oidx hm3 =>
          cases oidx with
          | some idx =>
            simp only [hfs] at heq
            cases hal : hm3.alloc_at idx (((n + 15) % U32) &&& 0xFFFFFFF0) with
            | none =>
              simp only [hal] at heq
              simp at heq
            | some t =>
              obtain ⟨a0, hm4⟩ := t
              simp only [hal] at heq
              rw [Prod.mk.injEq] at heq
              obtain ⟨e1, e2⟩ := heq
              injection e1 with e1
              subst e1
              subst e2
              obtain ⟨h1, m, hm_, hsz, hf, hmk, hn⟩ := alloc_at_post hal
              refine ⟨⟨m, ?_, hsz, hf, hmk, hn⟩, ?_⟩
              · rw [h1]
                exact hm_
              · intro hbig
                rw [h1]
                exact find_suitable_large_range hbig hfs
          | none =>
            simp only [hfs] at heq
            simp at heq


/-! ### Thread-local-stack lemmas -/

theorem writeRef_map_scope : ∀ (l : List tls_entry) (idx : Nat) (r : Option Addr),
    (writeRef l idx r).map tls_entry.scope = l.map tls_entry.scope := by
  intro l
  induction l with
  | nil => intro idx r; rfl
  | cons e rest ih =>
    intro idx r
    cases idx with
    | zero => rfl
    | succ i =>
      show (e :: writeRef rest i r).map _ = _
      simp only [List.map_cons]
      rw [ih i r]

theorem writeRef_length : ∀ (l : List tls_entry) (idx : Nat) (r : Option Addr),
    (writeRef l idx r).length = l.length := by
  intro l
  induction l with
  | nil => intro idx r; rfl
  | cons e rest ih =>
    intro idx r
    cases idx with
    | zero => rfl
    | succ i =>
      show (e :: writeRef rest i r).length = _
      simp only [List.length_cons]
      rw [ih i r]

theorem writeRef_get_eq : ∀ (l : List tls_entry) (idx : Nat) (r : Option Addr) (e : tls_entry),
    l.get? idx = some e → (writeRef l idx r).get? idx = some { e with ref_to := r } := by
  intro l
  induction l with
  | nil => intro idx r e h; cases h
  | cons e0 rest ih =>
    intro idx r e h
    cases idx with
    | zero =>
      simp only [List.get?_cons_zero] at h ⊢
      injection h with h
      subst h
      rfl
    | succ i =>
      show (e0 :: writeRef rest i r).get? (i + 1) = _
      simp only [List.get?_cons_succ] at h ⊢
      exact ih i r e h

theorem writeRef_get_ne : ∀ (l : List tls_entry) (idx j : Nat) (r : Option Addr), j ≠ idx →
    (writeRef l idx r).get? j = l.get? j := by
  intro l
  induction l with
  | nil => intro idx j r _; rfl
  | cons e0 rest ih =>
    intro idx j r hne
    cases idx with
    | zero =>
      cases j with
      | zero => exact absurd rfl hne
      | succ jj => rfl
    | succ i =>
      cases j with
      | zero => rfl
      | succ jj =>
        show (e0 :: writeRef rest i r).get? (jj + 1) = _
        simp only [List.get?_cons_succ]
        exact ih i jj r (fun e => hne (by rw [e]))

theorem hm_find_none_iff (l : List (String × Nat)) (k : String) :
    hm_find l k = none ↔ hm_contains l k = false := by
  rw [hm_find, hm_contains]
  constructor
  · intro h
    rw [Option.map_eq_none'] at h
    rw [List.find?_eq_none] at h
    rw [List.any_eq_false]
    exact h
  · intro h
    rw [List.any_eq_false] at h
    rw [Option.map_eq_none', List.find?_eq_none]
    exact h

theorem hm_contains_erase_self (vm : List (String × Nat)) (k : String) :
    hm_contains (hm_erase vm k) k = false := by
  rw [hm_contains, hm_erase, List.any_eq_false]
  intro x hx
  have h2 := (List.mem_filter.mp hx).2
  simp at h2 ⊢
  exact h2

theorem hm_contains_erase_mono (vm : List (String × Nat)) (k k2 : String)
    (h : hm_contains vm k2 = false) : hm_contains (hm_erase vm k) k2 = false := by
  rw [hm_contains, List.any_eq_false] at h
  rw [hm_contains, hm_erase, List.any_eq_false]
  intro x hx
  exact h x (List.mem_filter.mp hx).1

theorem hm_contains_foldl_erase :
    ∀ (l : List tls_entry) (vm : List (String × Nat)) (k : String),
    (k ∈ l.map tls_entry.variable_name ∨ hm_contains vm k = false) →
    hm_contains (l.foldl (fun v e => hm_erase v e.variable_name) vm) k = false := by
  intro l
  induction l with
  | nil =>
    intro vm k h
    rcases h with h | h
    · exact absurd h (List.not_mem_nil _)
    · exact h
  | cons e rest ih =>
    intro vm k h
    show hm_contains (rest.foldl _ (hm_erase vm e.variable_name)) k = false
    rcases h with h | h
    · simp only [List.map_cons] at h
      rcases List.mem_cons.mp h with he | hrest
      · refine ih _ k (Or.inr ?_)
        rw [he]
        exact hm_contains_erase_self vm e.variable_name
      · exact ih _ k (Or.inl hrest)
    · exact ih _ k (Or.inr (hm_contains_erase_mono vm _ k h))

theorem dropWhile_head_false {α : Type} (p : α → Bool) :
    ∀ (l : List α) (x : α), (l.dropWhile p).head? = some x → p x = false := by
  intro l
  induction l with
  | nil => intro x h; cases h
  | cons a rest ih =>
    intro x h
    by_cases ha : p a
    · rw [List.dropWhile_cons_of_pos ha] at h
      exact ih x h
    · rw [List.dropWhile_cons_of_neg ha] at h
      rw [List.head?_cons] at h
      injection h with h
      subst h
      exact Bool.eq_false_iff.mpr ha

theorem popLoop_eq (scope : Nat) : ∀ (l : List tls_entry) (vm : List (String × Nat)),
    popLoop scope l vm = (l.dropWhile (fun e => e.scope == scope),
      (l.takeWhile (fun e => e.scope == scope)).foldl
        (fun v e => hm_erase v e.variable_name) vm) := by
  intro l
  induction l with
  | nil => intro vm; rfl
  | cons e rest ih =>
    intro vm
    rw [popLoop]
    by_cases hs : e.scope = scope
    · rw [if_pos hs, ih,
        List.dropWhile_cons_of_pos (by simp [hs]),
        List.takeWhile_cons_of_pos (by simp [hs])]
      rfl
    · rw [if_neg hs,
        List.dropWhile_cons_of_neg (by simp [hs]),
        List.takeWhile_cons_of_neg (by simp [hs])]
      rfl

/-- In a scope-sorted stack bounded by `S`, every entry surviving the pop
walk (dropping the top run of scope-`S` entries) has scope strictly below
`S`. -/
theorem dropWhile_scope_lt {l : List tls_entry} {S : Nat}
    (h1 : List.Pairwise (fun a b => a ≤ b) (l.map tls_entry.scope))
    (h2 : ∀ x ∈ l.map tls_entry.scope, x ≤ S) :
    ∀ e ∈ l.reverse.dropWhile (fun e => e.scope == S), e.scope < S := by
  intro e he
  have hee : e ∈ l := by
    have h3 := (List.dropWhile_sublist
      (fun (e : tls_entry) => e.scope == S)).subset he
    rw [List.mem_reverse] at h3
    exact h3
  have hle : e.scope ≤ S :=
    h2 e.scope (List.mem_map.mpr ⟨e, hee, rfl⟩)
  have hne : e.scope ≠ S := by
    cases hK : l.reverse.dropWhile (fun e => e.scope == S) with
    | nil => rw [hK] at he; cases he
    | cons k0 K2 =>
      rw [hK] at he
      have hk0 : (k0.scope == S) = false := by
        refine dropWhile_head_false (fun e => e.scope == S) l.reverse k0 ?_
        rw [hK, List.head?_cons]
      have hk0ne : k0.scope ≠ S := by simpa using hk0
      have hk0le : k0.scope ≤ S := by
        refine h2 k0.scope (List.mem_map.mpr ⟨k0, ?_, rfl⟩)
        have h4 := (List.dropWhile_sublist
          (fun (e : tls_entry) => e.scope == S)).subset
          (hK ▸ List.mem_cons_self k0 K2)
        rw [List.mem_reverse] at h4
        exact h4
      rcases List.mem_cons.mp he with he0 | he2
      · subst he0; exact hk0ne
      · have hrevp : List.Pairwise (fun a b => b ≤ a)
            (l.reverse.map tls_entry.scope) := by
          rw [List.map_reverse, List.pairwise_reverse]
          exact h1
        have hsplit := List.takeWhile_append_dropWhile
          (fun e => e.scope == S) l.reverse
        rw [← hsplit, hK, List.map_append, List.map_cons] at hrevp
        obtain ⟨-, hp2, -⟩ := List.pairwise_append.mp hrevp
        have hk0e := (List.pairwise_cons.mp hp2).1 e.scope
          (List.mem_map.mpr ⟨e, he2, rfl⟩)
        omega
  omega

/-- The reachability invariant of the thread-local stack: entry scopes are
non-decreasing bottom to top and bounded by the current scope counter. -/
theorem tlsReach_inv {s : thread_local_stack} (h : tlsReach s) :
    List.Pairwise (fun a b => a ≤ b) (s.thread_stack.map tls_entry.scope) ∧
    ∀ x ∈ s.thread_stack.map tls_entry.scope, x ≤ s.scope := by
  induction h with
  | ctor => exact ⟨List.Pairwise.nil, by simp [thread_local_stack.mk0]⟩
  | @initVar s0 n p s2 hreach heq ih =>
    obtain ⟨h1, h2⟩ := ih
    rw [thread_local_stack.init] at heq
    by_cases hc : hm_contains s0.var_to_idx n
    · rw [if_pos hc] at heq
      cases heq
    · rw [if_neg hc] at heq
      injection heq with heq
      subst heq
      constructor
      · simp only [List.map_append, List.map_cons, List.map_nil]
        refine List.pairwise_append.mpr ⟨h1, List.pairwise_singleton _ _, ?_⟩
        intro a ha b hb
        rw [List.mem_singleton] at hb
        subst hb
        exact h2 a ha
      · intro x hx
        simp only [List.map_append, List.map_cons, List.map_nil] at hx
        rcases List.mem_append.mp hx with hx | hx
        · exact h2 x hx
        · rw [List.mem_singleton] at hx
          subst hx
          exact le_refl _
  | @reassign s0 n p s2 hreach heq ih =>
    obtain ⟨h1, h2⟩ := ih
    rw [thread_local_stack.reassign_ref] at heq
    cases hfind : hm_find s0.var_to_idx n with
    | none => simp only [hfind] at heq; cases heq
    | some idx =>
      simp only [hfind] at heq
      injection heq with heq
      subst heq
      simp only [writeRef_map_scope]
      exact ⟨h1, h2⟩
  | @removeR s0 n s2 hreach heq ih =>
    obtain ⟨h1, h2⟩ := ih
    rw [thread_local_stack.remove_ref] at heq
    cases hfind : hm_find s0.var_to_idx n with
    | none => simp only [hfind] at heq; cases heq
    | some idx =>
      simp only [hfind] at heq
      injection heq with heq
      subst heq
      simp only [writeRef_map_scope]
      exact ⟨h1, h2⟩
  | @push s0 hreach ih =>
    obtain ⟨h1, h2⟩ := ih
    exact ⟨h1, fun x hx => le_trans (h2 x hx) (Nat.le_succ _)⟩
  | @pop s0 d hreach ih =>
    obtain ⟨h1, h2⟩ := ih
    rw [thread_local_stack.pop_scope]
    by_cases hcond : (s0.scope ≤ 1 ∧ d = false) ∨ s0.scope = 0
    · rw [if_pos hcond]
      exact ⟨h1, h2⟩
    · rw [if_neg hcond]
      simp only [popLoop_eq]
      constructor
      · rw [List.map_reverse, List.pairwise_reverse]
        have hsub : List.Sublist
            ((s0.thread_stack.reverse.dropWhile
              (fun e => e.scope == s0.scope)).map tls_entry.scope)
            (s0.thread_stack.reverse.map tls_entry.scope) :=
          (List.dropWhile_sublist _).map tls_entry.scope
        refine List.Pairwise.sublist hsub ?_
        rw [List.map_reverse, List.pairwise_reverse]
        exact h1
      · intro x hx
        rw [List.map_reverse, List.mem_reverse] at hx
        obtain ⟨e, he, hex⟩ := List.mem_map.mp hx
        have := dropWhile_scope_lt h1 h2 e he
        omega


/-! ### Concrete states for witnesses and counterexamples -/

/-- Uninitialized segment memory: every header reads zeroed. -/
def demoJunk : Mem := fun _ => ⟨none, 0, 0⟩

/-- A freshly constructed heap manager. -/
def demoHM : heap_manager := heap_manager.mk0 demoJunk

/-- The manager after the wrap-around request `allocate(4294967290)`, whose
`uint32_t` rounding `(n + 15) & ~15` yields 0. -/
def wrapHM : heap_manager := (heap_manager.allocate demoHM 4294967290).2

/-- Segment 0's memory after `collect_garbage` on the wrapped state. -/
def wrapMem : Mem := wrapHM.collect_garbage.mems.getD 0 demoJunk

/-! ### The claims -/

/-- C10: the payload pointer lies exactly one 16-byte header past the header
pointer (64-bit arithmetic), and `data_ptr`/`from_data` are mutually
inverse. -/
theorem data_ptr_from_data_inverse (a q : Nat) (ha : a < U64) (hq : q < U64) :
    (a + HEADER_SIZE < U64 → header.data_ptr a = a + HEADER_SIZE) ∧
    header.from_data (header.data_ptr a) = a ∧
    header.data_ptr (header.from_data q) = q := by
  have hu : U64 = 18446744073709551616 := by norm_num [U64]
  have hh : HEADER_SIZE = 16 := rfl
  refine ⟨?_, ?_, ?_⟩
  · intro hlt
    rw [hh, hu] at hlt
    rw [header.data_ptr, hh, hu]
    omega
  · rw [hu] at ha
    rw [header.from_data, header.data_ptr, hh, hu]
    omega
  · rw [hu] at hq
    rw [header.data_ptr, header.from_data, hh, hu]
    omega

theorem data_ptr_from_data_inverse_witness :
    (32 + HEADER_SIZE < U64 → header.data_ptr 32 = 32 + HEADER_SIZE) ∧
    header.from_data (header.data_ptr 32) = 32 ∧
    header.data_ptr (header.from_data 64) = 64 :=
  data_ptr_from_data_inverse 32 64 (by norm_num [U64]) (by norm_num [U64])

/-- C3: a zero-byte request returns null, and a non-null result points at a
block of at least the 16-rounded request size that is no longer flagged
free. -/
theorem allocate_zero_null_and_result_block (hm : heap_manager) (n : Nat) :
    (heap_manager.allocate hm 0).1 = none ∧
    (∀ a hm2, heap_manager.allocate hm n = (some a, hm2) →
      ∃ m, hm2.mems.get? a.1 = some m ∧
        ((n + 15) % U32) &&& 0xFFFFFFF0 ≤ (m a.2).size ∧ (m a.2).is_free = false) := by
  constructor
  · rfl
  · intro a hm2 heq
    obtain ⟨⟨m, h1, h2, h3, -, -⟩, -⟩ := allocate_some_post heq
    exact ⟨m, h1, h2, h3⟩

theorem allocate_zero_null_and_result_block_witness :
    (heap_manager.allocate demoHM 0).1 = none ∧
    (∃ m, ((heap_manager.allocate demoHM 20).2).mems.get? 0 = some m ∧
      ((20 + 15) % U32) &&& 0xFFFFFFF0 ≤ (m 0).size ∧ (m 0).is_free = false) := by
  obtain ⟨h0, himp⟩ := allocate_zero_null_and_result_block demoHM 20
  exact ⟨h0, himp (0, 0) ((heap_manager.allocate demoHM 20).2) rfl⟩

/-- C1 (amended): `heap_manager::allocate` enforces no upper size bound —
`LARGE_OBJECT_THRESHOLD` is never consulted by the manager. An over-threshold
request is routed to the large segment class and served whenever a large
segment has room, returning a non-null block of the rounded size. -/
theorem allocate_ignores_large_threshold (hm : heap_manager) (n : Nat) (a : Addr)
    (hm2 : heap_manager)
    (hbig : MEDIUM_OBJECT_THRESHOLD < ((n + 15) % U32) &&& 0xFFFFFFF0)
    (heq : heap_manager.allocate hm n = (some a, hm2)) :
    (SMALL_OBJECT_SEGMENTS + MEDIUM_OBJECT_SEGMENTS ≤ a.1 ∧ a.1 < TOTAL_SEGMENTS) ∧
    ∃ m, hm2.mems.get? a.1 = some m ∧
      ((n + 15) % U32) &&& 0xFFFFFFF0 ≤ (m a.2).size ∧ (m a.2).is_free = false := by
  obtain ⟨⟨m, h1, h2, h3, -, -⟩, hr⟩ := allocate_some_post heq
  exact ⟨hr hbig, m, h1, h2, h3⟩

theorem allocate_ignores_large_threshold_witness :
    (SMALL_OBJECT_SEGMENTS + MEDIUM_OBJECT_SEGMENTS ≤ 6 ∧ 6 < TOTAL_SEGMENTS) ∧
    ∃ m, ((heap_manager.allocate demoHM 300000).2).mems.get? 6 = some m ∧
      ((300000 + 15) % U32) &&& 0xFFFFFFF0 ≤ (m 0).size ∧ (m 0).is_free = false :=
  allocate_ignores_large_threshold demoHM 300000 (6, 0)
    ((heap_manager.allocate demoHM 300000).2) (by decide) rfl

/-- C1 counterexample: 300000 bytes exceed `LARGE_OBJECT_THRESHOLD` (and are
already 16-aligned, so rounding does not change them), yet `allocate` on a
fresh manager hands out segment 6's first block instead of returning null. -/
theorem allocate_over_threshold_succeeds :
    LARGE_OBJECT_THRESHOLD < 300000 ∧
    ((300000 + 15) % U32) &&& 0xFFFFFFF0 = 300000 ∧
    (heap_manager.allocate demoHM 300000).1 = some (6, 0) :=
  ⟨by norm_num [LARGE_OBJECT_THRESHOLD], by decide, rfl⟩


/-- C2 (amended): from the first collection onward — though not at
construction — every segment directory entry's `free_bytes` equals the sum of
`size + 16` over the blocks of its free list, and this persists across
further allocations and collections. -/
theorem free_bytes_matches_free_list_after_gc {m : Mem} {info : segment_info}
    (h : segReachWF m info) :
    ∃ blocks flist,
      ChainTo m 0 SEGMENT_SIZE blocks ∧
      FreeListRep m info.free_list_head flist ∧
      flist.Nodup ∧
      (∀ o ∈ flist, o ∈ blocks ∧ (m o).is_free = true) ∧
      info.free_bytes = sumBytes m flist :=
  segReachWF_SegWF h

theorem free_bytes_matches_free_list_after_gc_witness :
    ∃ blocks flist,
      ChainTo (collectSeg (initSegment demoJunk) []).1 0 SEGMENT_SIZE blocks ∧
      FreeListRep (collectSeg (initSegment demoJunk) []).1
        (collectSeg (initSegment demoJunk) []).2.free_list_head flist ∧
      flist.Nodup ∧
      (∀ o ∈ flist, o ∈ blocks ∧
        ((collectSeg (initSegment demoJunk) []).1 o).is_free = true) ∧
      (collectSeg (initSegment demoJunk) []).2.free_bytes =
        sumBytes (collectSeg (initSegment demoJunk) []).1 flist :=
  free_bytes_matches_free_list_after_gc
    (segReachWF.gcStep [] (segReach.ctor demoJunk))

/-- C2 counterexample: immediately after construction — a quiescent point the
claim includes — the directory entry reads `free_bytes = SEGMENT_SIZE − 16`,
but the free list holds the single initial block, whose `size + 16` sums to
`SEGMENT_SIZE`: the equation fails by one header. -/
theorem fresh_segment_free_bytes_mismatch :
    segReach (initSegment demoJunk) ⟨some 0, SEGMENT_SIZE - HEADER_SIZE⟩ ∧
    FreeListRep (initSegment demoJunk) (some 0) [0] ∧
    sumBytes (initSegment demoJunk) [0] = SEGMENT_SIZE ∧
    ¬ SegWF (initSegment demoJunk) ⟨some 0, SEGMENT_SIZE - HEADER_SIZE⟩ := by
  have h0 : initSegment demoJunk 0 = initialHeader := Mem.write_at _ _ _
  have hrep : FreeListRep (initSegment demoJunk) (some 0) [0] := by
    refine FollowTo.cons ?_
    rw [h0]
    exact FollowTo.nil none
  have hsum : sumBytes (initSegment demoJunk) [0] = SEGMENT_SIZE := by
    rw [sumBytes_cons, sumBytes_nil, h0]
    norm_num [initialHeader, HEADER_SIZE, SEGMENT_SIZE]
  refine ⟨segReach.ctor demoJunk, hrep, hsum, ?_⟩
  rintro ⟨blocks, flist, hch, hrep2, hnd, hmemf, heqn⟩
  have hfl : flist = [0] := FollowTo.functional hrep2 hrep rfl
  rw [hfl, hsum] at heqn
  simp only [SEGMENT_SIZE, HEADER_SIZE] at heqn
  norm_num at heqn

/-- C5 (amended): from any state reachable with only nonzero allocation
requests — so that no zero-size block exists to trip the corruption guard —
a collection leaves no two physically adjacent free blocks in the segment. -/
theorem no_adjacent_free_after_collect {m : Mem} {info : segment_info}
    (h : segReachPos m info) (roots : List Nat) :
    ∃ blocks, ChainTo (collectSeg m roots).1 0 SEGMENT_SIZE blocks ∧
      List.Chain' (fun a b => ¬(((collectSeg m roots).1 a).is_free = true ∧
        ((collectSeg m roots).1 b).is_free = true)) blocks := by
  obtain ⟨blocks, flist, h1, h2, h3, h4, h5⟩ := segReachPos_parts h
  obtain ⟨blocks2, flist2, g1, -, -, -, -, g6⟩ := collectSeg_parts roots h1
  exact ⟨blocks2, g1, (g6 h5).1⟩

theorem no_adjacent_free_after_collect_witness :
    ∃ blocks, ChainTo (collectSeg (initSegment demoJunk) []).1 0 SEGMENT_SIZE blocks ∧
      List.Chain' (fun a b => ¬(((collectSeg (initSegment demoJunk) []).1 a).is_free = true ∧
        ((collectSeg (initSegment demoJunk) []).1 b).is_free = true)) blocks :=
  no_adjacent_free_after_collect (segReachPos.ctor demoJunk) []

/-- C5 counterexample: a request of 4294967290 bytes rounds (in `uint32_t`)
to 0, is served as a zero-size block at segment 0 offset 0, and after
`collect_garbage` the corruption guard aborts the coalescing walk at once:
blocks 0 and 16 are physically adjacent — block 0 has size 0, so its
successor header starts 16 bytes later — and both are flagged free. -/
theorem collect_garbage_leaves_adjacent_free :
    (heap_manager.allocate demoHM 4294967290).1 = some (0, 0) ∧
    ChainTo wrapMem 0 SEGMENT_SIZE [0, HEADER_SIZE] ∧
    (wrapMem 0).is_free = true ∧
    (wrapMem (0 + HEADER_SIZE + (wrapMem 0).size)).is_free = true ∧
    0 + HEADER_SIZE + (wrapMem 0).size = HEADER_SIZE := by
  refine ⟨rfl, ?_, rfl, rfl, rfl⟩
  refine ChainTo.cons ?_
  have h1 : (0 : Nat) + HEADER_SIZE + (wrapMem 0).size = HEADER_SIZE := rfl
  rw [h1]
  refine ChainTo.cons ?_
  have h2 : HEADER_SIZE + HEADER_SIZE + (wrapMem HEADER_SIZE).size = SEGMENT_SIZE := rfl
  rw [h2]
  exact ChainTo.nil _

theorem mark_sweep_roots_witness :
    ∃ mm ms,
      (gc_mark [initSegment demoJunk] [root_var.global (some (0, 0))]).get? 0 = some mm ∧
      (gc_collect [initSegment demoJunk] [root_var.global (some (0, 0))]).get? 0 = some ms ∧
      (∀ r ∈ [root_var.global (some (0, 0))], ∀ a ∈ root_var.refs r, a.1 = 0 →
        (mm a.2).is_marked = true) ∧
      (∀ x ∈ [0], (ms x).is_marked = false) ∧
      (∀ x ∈ [0], (initSegment demoJunk x).is_free = false →
        (initSegment demoJunk x).is_marked = false →
        (∀ r ∈ [root_var.global (some (0, 0))], ((0 : Nat), x) ∉ root_var.refs r) →
        (ms x).is_free = true) :=
  mark_sweep_roots rfl (initSegment_chain demoJunk)

/-- C6: every reachable segment's header chain tiles it exactly
(`Σ (size + 16) = SEGMENT_SIZE`); on any well-formed segment a first-fit
split carves the new free, unmarked header at `ptr + 16 + bytes` with size
`old.size − bytes − 16` while the allocated block keeps exactly `bytes`; and
one absorb step of the coalescing merge adds the successor's 16-byte header
plus payload to the merged size. -/
theorem chain_tiles_split_merge {m : Mem} {info : segment_info} (h : segReach m info) :
    (∃ blocks, ChainTo m 0 SEGMENT_SIZE blocks ∧ sumBytes m blocks = SEGMENT_SIZE) ∧
    (∀ (m0 : Mem) (i0 : segment_info) {blocks0 fl0 : List Nat} (bytes ptr : Nat) (m1 : Mem)
      (i1 : segment_info),
      ChainTo m0 0 SEGMENT_SIZE blocks0 →
      FreeListRep m0 i0.free_list_head fl0 →
      fl0.Nodup →
      (∀ o ∈ fl0, o ∈ blocks0 ∧ (m0 o).is_free = true) →
      allocate_from_segment m0 i0 bytes = some (ptr, m1, i1) →
      HEADER_SIZE + 16 ≤ (m0 ptr).size - bytes →
      (m1 (ptr + HEADER_SIZE + bytes)).size = (m0 ptr).size - bytes - HEADER_SIZE ∧
      (m1 (ptr + HEADER_SIZE + bytes)).is_free = true ∧
      (m1 (ptr + HEADER_SIZE + bytes)).is_marked = false ∧
      (m1 ptr).size = bytes) ∧
    (∀ (m0 : Mem) (cur f : Nat),
      cur + HEADER_SIZE + (m0 cur).size + HEADER_SIZE ≤ SEGMENT_SIZE →
      (m0 cur).is_free = true →
      (m0 (cur + HEADER_SIZE + (m0 cur).size)).is_free = true →
      (m0 cur).size + (HEADER_SIZE + (m0 (cur + HEADER_SIZE + (m0 cur).size)).size) < U32 →
      coalesceMerge m0 cur (f + 1) =
        coalesceMerge (Mem.write m0 cur
          { m0 cur with
            size := (m0 cur).size +
              (HEADER_SIZE + (m0 (cur + HEADER_SIZE + (m0 cur).size)).size) })
          cur f) := by
  refine ⟨?_, ?_, ?_⟩
  · obtain ⟨blocks, flist, h1, -, -, -⟩ := segReach_parts h
    refine ⟨blocks, h1, ?_⟩
    have h2 := h1.sum
    omega
  · intro m0 i0 blocks0 fl0 bytes ptr m1 i1 hch hrep hnd hmemf heq hs
    obtain ⟨-, -, -, -, -, -, -, -, -, hsplit⟩ := afs_preserves_parts hch hrep hnd hmemf heq
    exact hsplit hs
  · intro m0 cur f hfit hf1 hf2 hlt
    have h1 : coalesceMerge m0 cur (f + 1) =
        coalesceMerge (Mem.write m0 cur
          { m0 cur with
            size := add32 (m0 cur).size
              (HEADER_SIZE + (m0 (cur + HEADER_SIZE + (m0 cur).size)).size) })
          cur f := by
      rw [coalesceMerge]
      rw [if_pos hfit, if_pos ⟨hf1, hf2⟩]
    rw [h1, add32_eq hlt]

theorem chain_tiles_split_merge_witness :
    ∃ blocks, ChainTo (initSegment demoJunk) 0 SEGMENT_SIZE blocks ∧
      sumBytes (initSegment demoJunk) blocks = SEGMENT_SIZE :=
  (chain_tiles_split_merge (segReach.ctor demoJunk)).1


/-- A reachable thread-local stack: one variable in scope 1. -/
def demoTLS1 : thread_local_stack := ⟨1, [⟨"x", 1, none⟩], [("x", 0)]⟩

/-- `demoTLS1` after `push_scope`. -/
def demoTLS2 : thread_local_stack := ⟨2, [⟨"x", 1, none⟩], [("x", 0)]⟩

/-- `demoTLS2` after `init "y"`: one variable per scope. -/
def demoTLS3 : thread_local_stack :=
  ⟨2, [⟨"x", 1, none⟩, ⟨"y", 2, none⟩], [("x", 0), ("y", 1)]⟩

theorem demoTLS3_reach : tlsReach demoTLS3 := by
  have h1 : thread_local_stack.mk0.init "x" none = .ok demoTLS1 := rfl
  have h2 : demoTLS1.push_scope = demoTLS2 := rfl
  have h3 : demoTLS2.init "y" none = .ok demoTLS3 := rfl
  exact tlsReach.initVar (h2 ▸ tlsReach.push (tlsReach.initVar tlsReach.ctor h1)) h3

/-- C7: the scope counter starts at 1 and `push_scope` increments it;
reachable stacks are sorted by scope and bounded by the counter; `pop_scope`
is a no-op when `scope ≤ 1` without the destructor flag (or when `scope = 0`)
and otherwise retires exactly the top run of current-scope entries, erases
their names from the name-to-index map, and decrements the counter. -/
theorem scope_discipline {s : thread_local_stack} (h : tlsReach s) (d : Bool) :
    thread_local_stack.mk0.scope = 1 ∧
    s.push_scope.scope = s.scope + 1 ∧
    List.Pairwise (fun a b => a ≤ b) (s.thread_stack.map tls_entry.scope) ∧
    (∀ e ∈ s.thread_stack, e.scope ≤ s.scope) ∧
    ((s.scope ≤ 1 ∧ d = false) ∨ s.scope = 0 → s.pop_scope d = s) ∧
    (¬((s.scope ≤ 1 ∧ d = false) ∨ s.scope = 0) →
      ∃ kept removed,
        s.thread_stack = kept ++ removed ∧
        (∀ e ∈ removed, e.scope = s.scope) ∧
        (∀ e ∈ kept, e.scope < s.scope) ∧
        (s.pop_scope d).thread_stack = kept ∧
        (∀ e ∈ removed,
          hm_contains (s.pop_scope d).var_to_idx e.variable_name = false) ∧
        (s.pop_scope d).scope = s.scope - 1) := by
  obtain ⟨h1, h2⟩ := tlsReach_inv h
  refine ⟨rfl, rfl, h1, ?_, ?_, ?_⟩
  · intro e he
    exact h2 e.scope (List.mem_map.mpr ⟨e, he, rfl⟩)
  · intro hcond
    rw [thread_local_stack.pop_scope, if_pos hcond]
  · intro hcond
    rw [thread_local_stack.pop_scope, if_neg hcond]
    simp only [popLoop_eq]
    refine ⟨(s.thread_stack.reverse.dropWhile (fun e => e.scope == s.scope)).reverse,
      (s.thread_stack.reverse.takeWhile (fun e => e.scope == s.scope)).reverse,
      ?_, ?_, ?_, by trivial, ?_, by trivial⟩
    · refine Eq.symm ?_
      rw [← List.reverse_append,
        List.takeWhile_append_dropWhile (fun e => e.scope == s.scope)
          s.thread_stack.reverse,
        List.reverse_reverse]
    · intro e he
      rw [List.mem_reverse] at he
      have h3 := List.mem_takeWhile_imp he
      simpa using h3
    · intro e he
      rw [List.mem_reverse] at he
      exact dropWhile_scope_lt h1 h2 e he
    · intro e he
      rw [List.mem_reverse] at he
      refine hm_contains_foldl_erase _ _ _ (Or.inl ?_)
      exact List.mem_map.mpr ⟨e, he, rfl⟩

theorem scope_discipline_witness :
    ∃ kept removed,
      demoTLS3.thread_stack = kept ++ removed ∧
      (∀ e ∈ removed, e.scope = demoTLS3.scope) ∧
      (∀ e ∈ kept, e.scope < demoTLS3.scope) ∧
      (demoTLS3.pop_scope false).thread_stack = kept ∧
      (∀ e ∈ removed,
        hm_contains (demoTLS3.pop_scope false).var_to_idx e.variable_name = false) ∧
      (demoTLS3.pop_scope false).scope = demoTLS3.scope - 1 :=
  (scope_discipline demoTLS3_reach false).2.2.2.2.2 (by decide)

/-- C8: `init` fails with AlreadyDefined exactly when the name is present in
the name-to-index map; `reassign_ref` and `remove_ref` fail with NotFound
exactly when it is absent; and a successful `remove_ref` nulls the entry's
reference slot in place, keeping the entry on the stack and the name in the
map. -/
theorem tls_error_behavior (s : thread_local_stack) (n : String) (p : Option Addr) :
    (s.init n p = .error .AlreadyDefined ↔ hm_contains s.var_to_idx n = true) ∧
    (s.reassign_ref n p = .error .NotFound ↔ hm_contains s.var_to_idx n = false) ∧
    (s.remove_ref n = .error .NotFound ↔ hm_contains s.var_to_idx n = false) ∧
    (∀ s2, s.remove_ref n = .ok s2 →
      ∃ idx, hm_find s.var_to_idx n = some idx ∧
        s2.var_to_idx = s.var_to_idx ∧ s2.scope = s.scope ∧
        s2.thread_stack.length = s.thread_stack.length ∧
        (∀ e, s.thread_stack.get? idx = some e →
          s2.thread_stack.get? idx = some { e with ref_to := none }) ∧
        (∀ j, j ≠ idx → s2.thread_stack.get? j = s.thread_stack.get? j)) := by
  refine ⟨?_, ?_, ?_, ?_⟩
  · rw [thread_local_stack.init]
    by_cases hc : hm_contains s.var_to_idx n = true
    · rw [if_pos hc]
      simp [hc]
    · rw [if_neg hc]
      simp [hc]
  · rw [thread_local_stack.reassign_ref]
    cases hfind : hm_find s.var_to_idx n with
    | none =>
      simp only [hfind]
      constructor
      · intro _
        exact (hm_find_none_iff _ _).mp hfind
      · intro _
        trivial
    | some idx =>
      simp only [hfind]
      constructor
      · intro he
        cases he
      · intro hcf
        exfalso
        have h4 := (hm_find_none_iff s.var_to_idx n).mpr hcf
        rw [hfind] at h4
        cases h4
  · rw [thread_local_stack.remove_ref]
    cases hfind : hm_find s.var_to_idx n with
    | none =>
      simp only [hfind]
      constructor
      · intro _
        exact (hm_find_none_iff _ _).mp hfind
      · intro _
        trivial
    | some idx =>
      simp only [hfind]
      constructor
      · intro he
        cases he
      · intro hcf
        exfalso
        have h4 := (hm_find_none_iff s.var_to_idx n).mpr hcf
        rw [hfind] at h4
        cases h4
  · intro s2 heq
    rw [thread_local_stack.remove_ref] at heq
    cases hfind : hm_find s.var_to_idx n with
    | none =>
      simp only [hfind] at heq
      cases heq
    | some idx =>
      simp only [hfind] at heq
      injection heq with heq
      subst heq
      refine ⟨idx, rfl, rfl, rfl, ?_, ?_, ?_⟩
      · exact writeRef_length _ _ _
      · intro e he
        exact writeRef_get_eq _ _ _ _ he
      · intro j hj
        exact writeRef_get_ne _ _ _ _ hj

theorem tls_error_behavior_witness :
    (demoTLS1.init "x" none = .error .AlreadyDefined ↔
      hm_contains demoTLS1.var_to_idx "x" = true) ∧
    (demoTLS1.reassign_ref "x" none = .error .NotFound ↔
      hm_contains demoTLS1.var_to_idx "x" = false) ∧
    (demoTLS1.remove_ref "x" = .error .NotFound ↔
      hm_contains demoTLS1.var_to_idx "x" = false) ∧
    (∀ s2, demoTLS1.remove_ref "x" = .ok s2 →
      ∃ idx, hm_find demoTLS1.var_to_idx "x" = some idx ∧
        s2.var_to_idx = demoTLS1.var_to_idx ∧ s2.scope = demoTLS1.scope ∧
        s2.thread_stack.length = demoTLS1.thread_stack.length ∧
        (∀ e, demoTLS1.thread_stack.get? idx = some e →
          s2.thread_stack.get? idx = some { e with ref_to := none }) ∧
        (∀ j, j ≠ idx → s2.thread_stack.get? j = demoTLS1.thread_stack.get? j)) :=
  tls_error_behavior demoTLS1 "x" none


end IKP